import Mathlib

/-!
Verification development for the `timetabling-sat` repository's core solver:
a shallow embedding of `src/solver/cnf.py` and `src/solver/dpll.py` into Lean,
together with theorems about the embedded definitions.

Modelling conventions:
* Python `int` is modelled as `Int`, Python `str` as `List Char`.
* A Python `dict` (which preserves insertion order and is only ever queried
  pointwise here) is modelled as an insertion-ordered association list.
* Python functions that mutate their `assign` dictionary argument are modelled
  as functions that also return the final state of that dictionary.
* The unbounded `while` loops of `dpll.py` are modelled with an explicit fuel
  parameter; `none` means the fuel ran out.  A theorem below shows that the
  fuel chosen in `dpll` always suffices, which is exactly the termination
  argument for the Python code.
* The optional `trace` and `stats` parameters of the solver are omitted: in
  the source they only append events / increment counters and never influence
  any control flow or returned value.
-/

namespace TimetablingSat

/-- Python `abs` on `int`. -/
def absI (l : Int) : Int := if l < 0 then -l else l

/-- A clause, as in `cnf.py`: a list of signed integer literals. -/
abbrev Clause := List Int

/-- A variable assignment: insertion-ordered association list modelling the
Python `Dict[int, bool]`. -/
abbrev Assign := List (Int × Bool)

/-- Dictionary lookup, `assign.get(v)` / `v in assign` / `assign[v]`. -/
def alookup : Assign → Int → Option Bool
  | [], _ => none
  | (w, b) :: rest, v => if w = v then some b else alookup rest v

/-- Dictionary store `assign[v] = b`: update in place if present (keeping the
entry's position, as Python dicts do), otherwise append at the end. -/
def aset : Assign → Int → Bool → Assign
  | [], v, b => [(v, b)]
  | (w, c) :: rest, v, b => if w = v then (w, b) :: rest else (w, c) :: aset rest v b

/-- Dictionary deletion `del assign[v]`. -/
def adel (a : Assign) (v : Int) : Assign := a.filter (fun p => p.1 ≠ v)

/-- The CNF container of `cnf.py` (`@dataclass class CNF`). -/
structure CNF where
  num_vars : Int
  clauses : List Clause
deriving DecidableEq, Repr

/-- `CNF.add_clause` from `cnf.py`: filter out literal `0`, append the clause,
and raise `num_vars` to the running maximum magnitude when the filtered clause
is nonempty.  The Python `assert all(abs(l) >= 1 for l in cl)` can never fail
after the `!= 0` filter, so it is not modelled as a failure outcome. -/
def add_clause (self : CNF) (clause : List Int) : CNF :=
  let cl := clause.filter (fun l => l ≠ 0)
  { num_vars :=
      if cl = [] then self.num_vars
      else cl.foldl (fun n l => max n (absI l)) self.num_vars
    clauses := self.clauses ++ [cl] }

/-- `clause_satisfied` from `cnf.py`: scan the literals; an unassigned variable
is skipped; return `true` at the first literal whose assigned value matches its
polarity. -/
def clause_satisfied (clause : Clause) (model : Assign) : Bool :=
  clause.any fun l =>
    match alookup model (absI l) with
    | none => false
    | some val => (decide (l > 0) && val) || (decide (l < 0) && !val)

/-- `formula_satisfied` from `cnf.py`: every clause is satisfied. -/
def formula_satisfied (cnf : CNF) (model : Assign) : Bool :=
  cnf.clauses.all fun cl => clause_satisfied cl model

/-!
The DIMACS text layer of `cnf.py`.  Python `str` is modelled as `List Char`.
`str.splitlines` is modelled for the newline character alone (the source only
ever produces and consumes `\n`-separated text; Python additionally treats
`\r` and a few rarer control characters as line breaks).  `int(x)` is modelled
as an optional sign followed by ASCII digits (Python additionally accepts
underscores between digits and non-ASCII digits). -/

/-- Python `str.splitlines` restricted to `\n`: split on newlines, with no
trailing empty line for newline-terminated text. -/
def splitlines : List Char → List (List Char)
  | [] => []
  | c :: cs =>
    if c = '\n' then [] :: splitlines cs
    else
      match splitlines cs with
      | [] => [[c]]
      | l :: ls => (c :: l) :: ls

/-- The characters Python `str.strip()` / `str.split()` treat as whitespace. -/
def pyIsSpace (c : Char) : Bool :=
  c = ' ' || c = '\t' || c = '\n' || c = '\r' || c = '\x0b' || c = '\x0c'

/-- Python `str.strip()`: drop leading and trailing whitespace. -/
def pyStrip (cs : List Char) : List Char :=
  (((cs.dropWhile pyIsSpace).reverse).dropWhile pyIsSpace).reverse

/-- Accumulator version of Python `str.split()` (split on whitespace runs,
dropping empty tokens); `acc` is the token currently being read. -/
def pySplitAux : List Char → List Char → List (List Char)
  | [], acc => if acc = [] then [] else [acc]
  | c :: cs, acc =>
    if pyIsSpace c then
      if acc = [] then pySplitAux cs [] else acc :: pySplitAux cs []
    else pySplitAux cs (acc ++ [c])

/-- Python `str.split()` with no separator argument. -/
def pySplit (cs : List Char) : List (List Char) := pySplitAux cs []

/-- Digit character for `0 ≤ n ≤ 9` (used by the decimal printer). -/
def digitChar (n : Nat) : Char :=
  if n = 0 then '0' else if n = 1 then '1' else if n = 2 then '2'
  else if n = 3 then '3' else if n = 4 then '4' else if n = 5 then '5'
  else if n = 6 then '6' else if n = 7 then '7' else if n = 8 then '8' else '9'

/-- Decimal printer worker; the fuel argument (any value above `n`, see
`natToChars`) only makes the recursion structural. -/
def natToCharsAux : Nat → Nat → List Char
  | 0, _ => []
  | fuel + 1, n =>
    if n < 10 then [digitChar n]
    else natToCharsAux fuel (n / 10) ++ [digitChar (n % 10)]

/-- Decimal digits of a natural number, most significant first, as Python's
`str` produces them. -/
def natToChars (n : Nat) : List Char := natToCharsAux (n + 1) n

/-- Python `str(i)` for an `int`. -/
def intToChars (i : Int) : List Char :=
  if i < 0 then '-' :: natToChars i.natAbs else natToChars i.natAbs

/-- Parse a nonempty all-digit token to a natural number. -/
def digitsToNat (cs : List Char) : Option Nat :=
  if cs = [] then none
  else if cs.all Char.isDigit then
    some (cs.foldl (fun a c => 10 * a + (c.toNat - 48)) 0)
  else none

/-- Python `int(x)` on a whitespace-free token: optional sign, then digits. -/
def pyInt : List Char → Option Int
  | [] => none
  | c :: rest =>
    if c = '-' then (digitsToNat rest).map (fun n => -(Int.ofNat n))
    else if c = '+' then (digitsToNat rest).map (fun n => Int.ofNat n)
    else (digitsToNat (c :: rest)).map (fun n => Int.ofNat n)

/-- `CNF.to_dimacs` from `cnf.py`: the problem line
`p cnf <num_vars> <len(clauses)>`, then one line per clause — the literals
space-separated, followed by a space and the terminating `0` — all joined with
newlines, plus a trailing newline. -/
def to_dimacs (self : CNF) : List Char :=
  let lines :=
    (['p', ' ', 'c', 'n', 'f', ' '] ++ intToChars self.num_vars ++
      [' '] ++ natToChars self.clauses.length) ::
    self.clauses.map (fun cl =>
      List.intercalate [' '] (cl.map intToChars) ++ [' ', '0'])
  List.intercalate ['\n'] lines ++ ['\n']

/-- One line of `parse_dimacs` (cnf.py lines 31-44), acting on the running
state `(num_vars, clauses)`.  `none` models the exceptions Python can raise:
`IndexError` on a short problem line, `AssertionError` when its second token is
not `cnf`, and `ValueError` from `int(...)` on an unparsable token. -/
def parseLine (st : Int × List Clause) (raw : List Char) : Option (Int × List Clause) :=
  let s := pyStrip raw
  if s = [] then some st
  else if s.head? = some 'c' then some st
  else if s.head? = some 'p' then
    let parts := pySplit s
    match parts.get? 1 with
    | none => none                              -- parts[1]: IndexError
    | some t1 =>
      if t1 = ['c', 'n', 'f'] then
        match parts.get? 2 with
        | none => none                          -- parts[2]: IndexError
        | some t2 =>
          match pyInt t2 with
          | none => none                        -- int(parts[2]): ValueError
          | some n => some (n, st.2)
      else none                                 -- assert parts[1] == 'cnf'
  else
    let toks := (pySplit s).filter (fun t => t ≠ ['0'])
    match toks.mapM pyInt with
    | none => none                              -- int(x): ValueError
    | some lits =>
      if lits = [] then some st
      else some (lits.foldl (fun n l => max n (absI l)) st.1, st.2 ++ [lits])

/-- `parse_dimacs` from `cnf.py`: fold `parseLine` over the lines, starting
from `num_vars = 0` and no clauses; Python's exceptions short-circuit, which
the `Option` fold models. -/
def parse_dimacs (text : List Char) : Option CNF :=
  ((splitlines text).foldlM parseLine ((0 : Int), ([] : List Clause))).map
    (fun st => ⟨st.1, st.2⟩)

/-!
The DPLL search engine, `src/solver/dpll.py`.
-/

/-- The clause-simplification step performed after assigning literal `u` true,
as in the body of `_unit_propagate` (dpll.py lines 95-108) and, with `u` the
decided literal `pos`, verbatim again in `_dpll_rec` (lines 275-289):
drop every clause containing `u`, strip `-u` from the others, and report a
conflict (`none`, Python's early `return` / `bad = True; break`) when a clause
becomes empty. -/
def simplifyUnit (u : Int) : List Clause → Option (List Clause)
  | [] => some []
  | cl :: rest =>
    if u ∈ cl then simplifyUnit u rest
    else if -u ∈ cl then
      let new := cl.filter (fun l => l ≠ -u)
      if new = [] then none
      else (simplifyUnit u rest).map (fun cls => new :: cls)
    else (simplifyUnit u rest).map (fun cls => cl :: cls)

/-- One pass of the `for u in units` loop inside `_unit_propagate`
(dpll.py lines 77-108).  The `units` list was computed before the loop and is
iterated unchanged while `clauses` and `assign` evolve.  Result components:
the surviving clauses (`none` on conflict), the assignment (which in Python is
mutated in place and hence keeps its updates even on the conflict paths), and
the `changed` flag. -/
def processUnits : List Int → List Clause → Assign → Bool →
    Option (List Clause) × Assign × Bool
  | [], clauses, assign, changed => (some clauses, assign, changed)
  | u :: rest, clauses, assign, changed =>
    let var := absI u
    let val := decide (u > 0)
    match alookup assign var with
    | some b =>
      -- variable already assigned: conflict if inconsistent, else skip
      if b ≠ val then (none, assign, changed)
      else processUnits rest clauses assign changed
    | none =>
      let assign' := aset assign var val
      match simplifyUnit u clauses with
      | none => (none, assign', changed)
      | some clauses' => processUnits rest clauses' assign' true

/-- `_unit_propagate` from `dpll.py`: the `while changed` fixpoint loop.  Each
fuel step is one iteration of the `while`.  `none` = fuel exhausted (never
happens for the fuel supplied by `dpll`, see `unitPropagate_isSome`); otherwise
`some (none, a)` models Python's `(None, True)` conflict result (with the final
state of the mutated `assign`) and `some (some cls, a)` the normal result. -/
def unitPropagate : Nat → List Clause → Assign → Option (Option (List Clause) × Assign)
  | 0, _, _ => none
  | fuel + 1, clauses, assign =>
    let units := (clauses.filter (fun cl => cl.length = 1)).map (fun cl => cl.headD 0)
    if units = [] then some (some clauses, assign)
    else
      match processUnits units clauses assign false with
      | (none, assign', _) => some (none, assign')
      | (some clauses', assign', changed) =>
        if changed then unitPropagate fuel clauses' assign'
        else some (some clauses', assign')

/-- The polarity-table update of `_pure_literal_elimination` (dpll.py lines
127-135): first occurrence records the literal's polarity, a differing later
occurrence sets it to `0`. -/
def updatePolarity : List (Int × Int) → Int → Int → List (Int × Int)
  | [], v, p => [(v, p)]
  | (w, q) :: rest, v, p =>
    if w = v then (if q ≠ p then (w, 0) :: rest else (w, q) :: rest)
    else (w, q) :: updatePolarity rest v p

/-- The polarity table over all clauses, in first-occurrence (Python dict
insertion) order. -/
def computePolarity (clauses : List Clause) : List (Int × Int) :=
  clauses.flatten.foldl (fun pol l => updatePolarity pol (absI l) (if l > 0 then 1 else -1)) []

/-- `_pure_literal_elimination` from `dpll.py`: assign every pure literal and
drop the clauses it satisfies.  Returns `(new_clauses, assign_after, changed)`. -/
def pureLiteralElimination (clauses : List Clause) (assign : Assign) :
    List Clause × Assign × Bool :=
  if clauses = [] then (clauses, assign, false)
  else
    let polarity := computePolarity clauses
    let pures := (polarity.filter
        (fun p => (p.2 = 1 || p.2 = -1) && (alookup assign p.1).isNone)).map
        (fun p => (p.1, decide (p.2 = 1)))
    if pures.isEmpty then (clauses, assign, false)
    else
      let assign' := pures.foldl (fun a p => aset a p.1 p.2) assign
      let satisfied := pures.map (fun p => if p.2 then p.1 else -p.1)
      let new_clauses := clauses.filter (fun cl => !(cl.any (fun l => decide (l ∈ satisfied))))
      (new_clauses, assign', true)

/-- Occurrence-count increment for `_dlis_lite_choice`'s `pos_count` /
`neg_count` dictionaries (`m.get(v, 0) + 1`), preserving insertion order. -/
def bumpCount : List (Int × Nat) → Int → List (Int × Nat)
  | [], v => [(v, 1)]
  | (w, n) :: rest, v =>
    if w = v then (w, n + 1) :: rest else (w, n) :: bumpCount rest v

/-- Count lookup `m.get(v, 0)`. -/
def getCount (m : List (Int × Nat)) (v : Int) : Nat :=
  match m.find? (fun p => p.1 = v) with
  | some p => p.2
  | none => 0

/-- The two occurrence-count tables of `_dlis_lite_choice` (dpll.py lines
163-175), built by scanning clauses then literals in order and skipping
assigned variables. -/
def bumpCounts (clauses : List Clause) (assign : Assign) :
    List (Int × Nat) × List (Int × Nat) :=
  clauses.flatten.foldl
    (fun counts l =>
      let v := absI l
      if (alookup assign v).isSome then counts
      else if l > 0 then (bumpCount counts.1 v, counts.2)
      else (counts.1, bumpCount counts.2 v))
    ([], [])

/-- `_dlis_lite_choice` from `dpll.py`.  Python iterates
`keys = set(pos_count) | set(neg_count)` in hash-table order; this is modelled
as the keys of `pos_count` in insertion order followed by the new keys of
`neg_count`.  Every concrete evaluation below has a unique strictly maximal
score, for which the iteration order is irrelevant. -/
def dlisLiteChoice (clauses : List Clause) (assign : Assign) : Int × Bool :=
  let (pos_count, neg_count) := bumpCounts clauses assign
  if pos_count = [] ∧ neg_count = [] then (0, true)
  else
    let posKeys := pos_count.map (fun p => p.1)
    let keys := posKeys ++ (neg_count.map (fun p => p.1)).filter (fun v => v ∉ posKeys)
    let best := keys.foldl
      (fun best v =>
        let pc : Int := (getCount pos_count v : Nat)
        let nc : Int := (getCount neg_count v : Nat)
        if pc ≥ nc ∧ pc > best.2.2 then (v, true, pc)
        else if nc > best.2.2 then (v, false, nc)
        else best)
      (0, true, -1)
    (best.1, best.2.1)

/-- `_choose_unassigned` from `dpll.py`: DLIS-lite when the heuristic is
enabled (falling through on `v == 0`), else the first literal, in clause order,
whose variable is unassigned. -/
def chooseUnassigned (clauses : List Clause) (assign : Assign) (use_heuristic : Bool) :
    Int × Bool :=
  let fallback :=
    match clauses.flatten.find? (fun l => (alookup assign (absI l)).isNone) with
    | some l => (absI l, true)
    | none => ((0 : Int), true)
  if use_heuristic then
    let (v, pol) := dlisLiteChoice clauses assign
    if v ≠ 0 then (v, pol) else fallback
  else fallback

/-- Result of the `while True` simplification loop at the top of `_dpll_rec`
(dpll.py lines 243-257): conflict (`return False, empty`), success on an empty
clause list (`return True, assign.copy()`), or fall through to branching.  The
final assignment state is carried in each case. -/
inductive LoopRes where
  | conflictR (a : Assign)
  | satR (a : Assign)
  | proceed (cls : List Clause) (a : Assign)
deriving DecidableEq, Repr

/-- The `while True` loop at the top of `_dpll_rec`: unit propagation, the
empty-clause-list success check, then pure literal elimination, repeated while
the latter reports a change.  Each fuel step is one loop iteration; the nested
`_unit_propagate` call receives the same fuel. -/
def simplifyLoop : Nat → List Clause → Assign → Option LoopRes
  | 0, _, _ => none
  | fuel + 1, clauses, assign =>
    match unitPropagate (fuel + 1) clauses assign with
    | none => none
    | some (none, a') => some (.conflictR a')
    | some (some cls', a') =>
      if cls' = [] then some (.satR a')
      else
        match pureLiteralElimination cls' a' with
        | (cls'', a'', changed) =>
          if changed then simplifyLoop fuel cls'' a''
          else some (.proceed cls'' a'')

/-- `_dpll_rec` from `dpll.py`.  Returns `(sat, model, assign_after)`: the pair
Python returns, plus the final state of the shared, mutated `assign`
dictionary (Python's `model` on success is `assign.copy()`; on failure it is
the fresh empty dict `{}` while `assign` itself keeps whatever the failed
sub-searches left in it — only each activation's own decision variable is
removed by `del assign[v]`).  `none` = fuel exhausted. -/
def dpllRec (use_heuristic : Bool) : Nat → List Clause → Assign →
    Option (Bool × Assign × Assign)
  | 0, _, _ => none
  | fuel + 1, clauses, assign =>
    match simplifyLoop (fuel + 1) clauses assign with
    | none => none
    | some (.conflictR a) => some (false, [], a)
    | some (.satR a) => some (true, a, a)
    | some (.proceed cls a) =>
      let vp := chooseUnassigned cls a use_heuristic
      if vp.1 = 0 then some (true, a, a)
      else
        -- first branch: val = preferred polarity
        let a1 := aset a vp.1 vp.2
        let res1 :=
          match simplifyUnit (if vp.2 then vp.1 else -vp.1) cls with
          | none => some (false, ([] : Assign), a1)   -- empty clause after decide
          | some newCls => dpllRec use_heuristic fuel newCls a1
        match res1 with
        | none => none
        | some (true, m, aA) => some (true, m, aA)
        | some (false, _, aA) =>
          -- backtrack: del assign[v], then try the opposite polarity
          let a2 := aset (adel aA vp.1) vp.1 (!vp.2)
          let res2 :=
            match simplifyUnit (if !vp.2 then vp.1 else -vp.1) cls with
            | none => some (false, ([] : Assign), a2)
            | some newCls => dpllRec use_heuristic fuel newCls a2
          match res2 with
          | none => none
          | some (true, m, aA') => some (true, m, aA')
          | some (false, _, aA') => some (false, [], adel aA' vp.1)

/-- The distinct variables occurring in a clause list (used only for the fuel
bound; the Python code has no such computation because its loops are
unbounded). -/
def fuelFor (clauses : List Clause) : Nat :=
  ((clauses.flatten.map absI).dedup).length + 1

/-- `dpll` from `dpll.py`: copy the clauses (a no-op on immutable values),
start from the empty assignment, and run `_dpll_rec`.  The result is
`(is_satisfiable, model)`; the fuel always suffices (see `dpll_terminates`). -/
def dpll (cnf : CNF) (use_heuristic : Bool) : Option (Bool × Assign) :=
  (dpllRec use_heuristic (fuelFor cnf.clauses) cnf.clauses []).map
    (fun r => (r.1, r.2.1))

/-- All total assignments over variables `1..n`, for brute-force satisfiability
checking of small formulas. -/
def allAssignments : Nat → List Assign
  | 0 => [[]]
  | n + 1 =>
    (allAssignments n).flatMap
      (fun a => [a ++ [((n + 1 : Int), true)], a ++ [((n + 1 : Int), false)]])

/-- Exhaustive brute-force satisfiability over the variables `1..num_vars`. -/
def bruteSat (cnf : CNF) : Bool :=
  (allAssignments cnf.num_vars.toNat).any (fun a => formula_satisfied cnf a)

/-- Specification-side description of a line that makes `parse_dimacs` fail:
a nonempty, non-comment line that either starts with `p` and is malformed (too
few tokens, second token not `cnf`, or unparsable third token) or contains a
non-terminator token that is not parsable as an integer.  Stated independently
of `parseLine`'s control flow so that the equivalence below has content. -/
def lineBad (raw : List Char) : Bool :=
  let s := pyStrip raw
  if s = [] then false
  else if s.head? = some 'c' then false
  else if s.head? = some 'p' then
    match (pySplit s).get? 1 with
    | none => true
    | some t1 =>
      if t1 = ['c', 'n', 'f'] then
        match (pySplit s).get? 2 with
        | none => true
        | some t2 => (pyInt t2).isNone
      else true
  else ((pySplit s).filter (fun t => t ≠ ['0'])).any (fun t => (pyInt t).isNone)

/-- The distinct variables occurring in a clause list. -/
def varsOf (clauses : List Clause) : Finset Int := (clauses.flatten.map absI).toFinset

/-- The clause variables not yet assigned. -/
def unassigned (clauses : List Clause) (a : Assign) : Finset Int :=
  (varsOf clauses).filter (fun v => alookup a v = none)

/-- The termination measure. -/
def mu (clauses : List Clause) (a : Assign) : Nat := (unassigned clauses a).card

/-- Clause-list refinement: every clause of the right list is a (pointwise
sub-)clause of some clause of the left list.  All simplification steps of the
solver produce refinements. -/
def Ref (cls cls' : List Clause) : Prop :=
  ∀ c' ∈ cls', ∃ c ∈ cls, ∀ l ∈ c', l ∈ c

/-- Assignment extension: everything assigned stays assigned with the same
value. -/
def ALe (a a' : Assign) : Prop :=
  ∀ v b, alookup a v = some b → alookup a' v = some b

/-- The assignment carried by a loop result. -/
def resAssign : LoopRes → Assign
  | .conflictR a => a
  | .satR a => a
  | .proceed _ a => a

/-!
Helper lemmas about the fold that computes a running maximum magnitude, used
both by `add_clause` and by the `num_vars` updates of `parse_dimacs`.
-/

theorem foldl_max_le_init (cl : List Int) (n : Int) :
    n ≤ cl.foldl (fun a l => max a (absI l)) n := by
  induction cl generalizing n with
  | nil => exact le_refl n
  | cons x xs ih => exact le_trans (le_max_left n (absI x)) (ih (max n (absI x)))

theorem foldl_max_mem_le (cl : List Int) (n : Int) (l : Int) (hl : l ∈ cl) :
    absI l ≤ cl.foldl (fun a l => max a (absI l)) n := by
  induction cl generalizing n with
  | nil => cases hl
  | cons x xs ih =>
    rcases List.mem_cons.mp hl with h | h
    · subst h
      exact le_trans (le_max_right n (absI l)) (foldl_max_le_init xs (max n (absI l)))
    · exact ih (max n (absI x)) h

theorem foldl_max_cases (cl : List Int) (n : Int) :
    cl.foldl (fun a l => max a (absI l)) n = n ∨
      cl.foldl (fun a l => max a (absI l)) n ∈ cl.map absI := by
  induction cl generalizing n with
  | nil => exact Or.inl rfl
  | cons x xs ih =>
    rcases ih (max n (absI x)) with h | h
    · rcases max_choice n (absI x) with hm | hm
      · exact Or.inl (by rw [List.foldl_cons, h, hm])
      · exact Or.inr (by rw [List.foldl_cons, h, hm]; exact List.mem_cons_self _ _)
    · exact Or.inr (List.mem_cons_of_mem _ h)

/-!
Claim theorems.
-/

/-- C1: the claim asserts soundness — whenever `dpll` reports satisfiable with
assignment `A`, `formula_satisfied(F, A)` is true.  The code violates this: on
the formula below (both with and without the branching heuristic) the solver
reports satisfiable with the model `{2: True, 1: False, 3: True}`, yet that
model falsifies the clause `[-2, -2]`, so `formula_satisfied` rejects it.  The
cause is the backtracking step `del assign[v]` (dpll.py line 300), which
removes only the decision variable and leaks the unit propagations of the
failed branch `1 := True` (namely `2 := True`) into the sibling branch. -/
theorem dpll_soundness_violated :
    dpll ⟨3, [[-1, 2], [-1, -2], [-2, -2], [1, 1, 1, 1, 3, -3]]⟩ true =
      some (true, [(2, true), (1, false), (3, true)]) ∧
    dpll ⟨3, [[-1, 2], [-1, -2], [-2, -2], [1, 1, 1, 1, 3, -3]]⟩ false =
      some (true, [(2, true), (1, false), (3, true)]) ∧
    formula_satisfied ⟨3, [[-1, 2], [-1, -2], [-2, -2], [1, 1, 1, 1, 3, -3]]⟩
      [(2, true), (1, false), (3, true)] = false := by
  refine ⟨by decide, by decide, by decide⟩

/-- C2: the claim asserts that for formulas over at most 20 variables the
verdict of `dpll` (with either heuristic setting) equals brute-force
satisfiability.  The code violates this: the 3-variable formula below is
satisfiable (e.g. by `1 := False, 2 := False`), which `bruteSat` confirms, yet
`dpll` with `use_heuristic = False` reports unsatisfiable.  Again the cause is
the leaked unit propagations of the failed branch `1 := True` (`2 := True`,
`3 := True`), which produce a spurious conflict with the unit clause `[-2]` in
the branch `1 := False`. -/
theorem dpll_completeness_violated :
    dpll ⟨3, [[-1, 2], [-2, 3], [-2, -3], [1, -2]]⟩ false = some (false, []) ∧
    bruteSat ⟨3, [[-1, 2], [-2, 3], [-2, -3], [1, -2]]⟩ = true := by
  refine ⟨by decide, by decide⟩

/-- C8: `add_clause` preserves the `num_vars` invariant.  Under the hypothesis
that `num_vars` bounds every literal magnitude of the existing clauses, after
`add_clause`: the invariant still holds, the zero-filtered clause is appended,
and the new `num_vars` is the maximum of the old value and the magnitudes of
the appended literals (it is at least the old value, bounds every appended
literal, and is either the old value or one of the appended magnitudes). -/
theorem add_clause_invariant (F : CNF) (lits : List Int)
    (hInv : ∀ cl ∈ F.clauses, ∀ l ∈ cl, absI l ≤ F.num_vars) :
    (∀ cl ∈ (add_clause F lits).clauses, ∀ l ∈ cl, absI l ≤ (add_clause F lits).num_vars) ∧
    (add_clause F lits).clauses = F.clauses ++ [lits.filter (fun l => l ≠ 0)] ∧
    F.num_vars ≤ (add_clause F lits).num_vars ∧
    ((add_clause F lits).num_vars = F.num_vars ∨
      (add_clause F lits).num_vars ∈ (lits.filter (fun l => l ≠ 0)).map absI) := by
  have hge : F.num_vars ≤ (add_clause F lits).num_vars := by
    unfold add_clause
    dsimp only
    split
    · exact le_refl _
    · exact foldl_max_le_init _ _
  have hmemle : ∀ l ∈ lits.filter (fun l => l ≠ 0),
      absI l ≤ (add_clause F lits).num_vars := by
    intro l hl
    unfold add_clause
    dsimp only
    split
    · rename_i h
      rw [h] at hl
      cases hl
    · exact foldl_max_mem_le _ _ _ hl
  have hcases : (add_clause F lits).num_vars = F.num_vars ∨
      (add_clause F lits).num_vars ∈ (lits.filter (fun l => l ≠ 0)).map absI := by
    unfold add_clause
    dsimp only
    split
    · exact Or.inl rfl
    · exact foldl_max_cases _ _
  refine ⟨?_, rfl, hge, hcases⟩
  intro cl hmem l hl
  rcases List.mem_append.mp hmem with h | h
  · exact le_trans (hInv cl h l hl) hge
  · rw [List.mem_singleton] at h
    subst h
    exact hmemle l hl

/-- C8 witness: the theorem applied at a concrete formula and clause. -/
theorem add_clause_invariant_witness :
    (∀ cl ∈ (add_clause ⟨3, [[1]]⟩ [0, 5, -7, 0]).clauses,
      ∀ l ∈ cl, absI l ≤ (add_clause ⟨3, [[1]]⟩ [0, 5, -7, 0]).num_vars) ∧
    (add_clause ⟨3, [[1]]⟩ [0, 5, -7, 0]).clauses =
      [[1]] ++ [[0, 5, -7, 0].filter (fun l => l ≠ 0)] ∧
    (3 : Int) ≤ (add_clause ⟨3, [[1]]⟩ [0, 5, -7, 0]).num_vars ∧
    ((add_clause ⟨3, [[1]]⟩ [0, 5, -7, 0]).num_vars = 3 ∨
      (add_clause ⟨3, [[1]]⟩ [0, 5, -7, 0]).num_vars ∈
        ([0, 5, -7, 0].filter (fun l => l ≠ 0)).map absI) :=
  add_clause_invariant ⟨3, [[1]]⟩ [0, 5, -7, 0] (by decide)

/-- Pointwise characterisation of the literal check inside
`clause_satisfied`. -/
theorem litSat_iff (m : Assign) (l : Int) :
    ((match alookup m (absI l) with
      | none => false
      | some val => (decide (l > 0) && val) || (decide (l < 0) && !val)) = true) ↔
    ((l > 0 ∧ alookup m (absI l) = some true) ∨ (l < 0 ∧ alookup m (absI l) = some false)) := by
  cases h : alookup m (absI l) with
  | none => simp [h]
  | some val => cases val <;> simp [h]

/-- C9: `clause_satisfied` returns true iff some literal of the clause has its
variable mapped to a value matching the literal's polarity; a clause none of
whose variables is assigned is reported unsatisfied; and `formula_satisfied`
holds exactly when every clause is satisfied under this rule. -/
theorem clause_satisfied_spec (cl : Clause) (m : Assign) (F : CNF) (A : Assign) :
    (clause_satisfied cl m = true ↔
      ∃ l ∈ cl, (l > 0 ∧ alookup m (absI l) = some true) ∨
        (l < 0 ∧ alookup m (absI l) = some false)) ∧
    ((∀ l ∈ cl, alookup m (absI l) = none) → clause_satisfied cl m = false) ∧
    (formula_satisfied F A = true ↔ ∀ c ∈ F.clauses, clause_satisfied c A = true) := by
  have hmain : clause_satisfied cl m = true ↔
      ∃ l ∈ cl, (l > 0 ∧ alookup m (absI l) = some true) ∨
        (l < 0 ∧ alookup m (absI l) = some false) := by
    unfold clause_satisfied
    rw [List.any_eq_true]
    constructor
    · rintro ⟨l, hl, hp⟩
      exact ⟨l, hl, (litSat_iff m l).mp hp⟩
    · rintro ⟨l, hl, hp⟩
      exact ⟨l, hl, (litSat_iff m l).mpr hp⟩
  refine ⟨hmain, ?_, ?_⟩
  · intro hnone
    rw [← Bool.not_eq_true]
    rw [hmain]
    rintro ⟨l, hl, hp⟩
    rcases hp with ⟨_, hs⟩ | ⟨_, hs⟩ <;> rw [hnone l hl] at hs <;> cases hs
  · unfold formula_satisfied
    exact List.all_eq_true

/-- Once the `changed` flag passed through `processUnits` is `true` it stays
`true`. -/
theorem processUnits_changed_true :
    ∀ (us : List Int) (cls : List Clause) (a : Assign) (o : Option (List Clause))
      (a' : Assign) (ch : Bool),
      processUnits us cls a true = (o, a', ch) → ch = true := by
  intro us
  induction us with
  | nil =>
    intro cls a o a' ch h
    cases h
    rfl
  | cons u rest ih =>
    intro cls a o a' ch h
    unfold processUnits at h
    dsimp only at h
    cases hl : alookup a (absI u) with
    | some b =>
      rw [hl] at h
      dsimp only at h
      by_cases hb : b ≠ decide (u > 0)
      · rw [if_pos hb] at h
        cases h
        rfl
      · rw [if_neg hb] at h
        exact ih cls a o a' ch h
    | none =>
      rw [hl] at h
      dsimp only at h
      cases hs : simplifyUnit u cls with
      | none =>
        rw [hs] at h
        cases h
        rfl
      | some cls₂ =>
        rw [hs] at h
        exact ih cls₂ _ o a' ch h

/-- If the `for u in units` pass finishes without a conflict and without
setting `changed`, it changed nothing and every unit in the list was already
consistently assigned. -/
theorem processUnits_false_id :
    ∀ (us : List Int) (cls : List Clause) (a : Assign) (cls' : List Clause) (a' : Assign),
      processUnits us cls a false = (some cls', a', false) →
      cls' = cls ∧ a' = a ∧ ∀ u ∈ us, alookup a (absI u) = some (decide (u > 0)) := by
  intro us
  induction us with
  | nil =>
    intro cls a cls' a' h
    cases h
    exact ⟨rfl, rfl, by intro u hu; cases hu⟩
  | cons u rest ih =>
    intro cls a cls' a' h
    unfold processUnits at h
    dsimp only at h
    cases hl : alookup a (absI u) with
    | some b =>
      rw [hl] at h
      dsimp only at h
      by_cases hb : b ≠ decide (u > 0)
      · rw [if_pos hb] at h
        cases h
      · rw [if_neg hb] at h
        rcases ih cls a cls' a' h with ⟨h1, h2, h3⟩
        push_neg at hb
        refine ⟨h1, h2, ?_⟩
        intro w hw
        rcases List.mem_cons.mp hw with hw | hw
        · subst hw
          rw [hl, hb]
        · exact h3 w hw
    | none =>
      rw [hl] at h
      dsimp only at h
      cases hs : simplifyUnit u cls with
      | none =>
        rw [hs] at h
        cases h
      | some cls₂ =>
        rw [hs] at h
        have := processUnits_changed_true rest cls₂ _ (some cls') a' false h
        cases this

/-- C5: whenever `_unit_propagate` returns without reporting a conflict, no
unit clause among the surviving clauses remains to be propagated: every
surviving clause of length exactly one forces a value that the returned
assignment already records consistently. -/
theorem unitPropagate_no_pending_units
    (fuel : Nat) (clauses : List Clause) (assign : Assign)
    (cls' : List Clause) (a' : Assign)
    (h : unitPropagate fuel clauses assign = some (some cls', a')) :
    ∀ cl ∈ cls', ∀ u : Int, cl = [u] → alookup a' (absI u) = some (decide (u > 0)) := by
  induction fuel generalizing clauses assign with
  | zero => cases h
  | succ fuel ih =>
    unfold unitPropagate at h
    dsimp only at h
    by_cases hu : (clauses.filter (fun cl => cl.length = 1)).map (fun cl => cl.headD 0) = []
    · rw [if_pos hu] at h
      injection h with h1
      injection h1 with h2 h3
      injection h2 with h4
      subst h4
      subst h3
      intro cl hmem u hcl
      subst hcl
      exact absurd (hu ▸ List.mem_map.mpr ⟨[u], List.mem_filter.mpr ⟨hmem, rfl⟩, rfl⟩)
        (List.not_mem_nil u)
    · rw [if_neg hu] at h
      cases heq : processUnits
          ((clauses.filter (fun cl => cl.length = 1)).map (fun cl => cl.headD 0))
          clauses assign false with
      | mk o rest =>
        cases rest with
        | mk a₂ changed =>
          rw [heq] at h
          cases o with
          | none =>
            dsimp only at h
            cases h
          | some cls₂ =>
            dsimp only at h
            cases changed with
            | true =>
              rw [if_pos rfl] at h
              exact ih cls₂ a₂ h
            | false =>
              rw [if_neg (by simp)] at h
              cases h
              rcases processUnits_false_id _ _ _ _ _ heq with ⟨h1, h2, h3⟩
              subst h1
              subst h2
              intro cl hmem u hcl
              subst hcl
              exact h3 u (List.mem_map.mpr ⟨[u], List.mem_filter.mpr ⟨hmem, rfl⟩, rfl⟩)

/-- C5 witness: the theorem applied at a concrete propagation that terminates
without conflict while a (consistently assigned) unit clause survives. -/
theorem unitPropagate_no_pending_units_witness :
    alookup [(1, true)] (absI 1) = some (decide ((1 : Int) > 0)) :=
  unitPropagate_no_pending_units 1 [[1]] [(1, true)] [[1]] [(1, true)]
    (by decide) [1] (by decide) 1 rfl

/-- The head surviving `dropWhile p` falsifies `p`. -/
theorem dropWhile_head_false {p : Char → Bool} :
    ∀ (l : List Char) (c : Char), (l.dropWhile p).head? = some c → p c = false := by
  intro l
  induction l with
  | nil => intro c h; cases h
  | cons a as ih =>
    intro c h
    rw [List.dropWhile_cons] at h
    by_cases hp : p a = true
    · rw [if_pos hp] at h
      exact ih c h
    · rw [if_neg hp] at h
      cases h
      exact Bool.not_eq_true _ ▸ hp

/-- The head of a stripped string is not whitespace. -/
theorem pyStrip_head (raw : List Char) (c : Char)
    (h : (pyStrip raw).head? = some c) : pyIsSpace c = false := by
  have hpre : pyStrip raw <+: raw.dropWhile pyIsSpace := by
    unfold pyStrip
    conv_rhs => rw [← List.reverse_reverse (raw.dropWhile pyIsSpace)]
    exact List.reverse_prefix.mpr (List.dropWhile_suffix _)
  rcases hpre with ⟨t, ht⟩
  have hne : pyStrip raw ≠ [] := by
    intro hnil
    rw [hnil] at h
    cases h
  have : (raw.dropWhile pyIsSpace).head? = some c := by
    rw [← ht, List.head?_append_of_ne_nil _ hne, h]
  exact dropWhile_head_false raw c this

/-- The first token produced by `pySplitAux` extends the accumulator. -/
theorem pySplitAux_first (cs : List Char) :
    ∀ (acc : List Char), acc ≠ [] →
      ∃ t ts, pySplitAux cs acc = t :: ts ∧ acc <+: t := by
  induction cs with
  | nil =>
    intro acc hacc
    refine ⟨acc, [], ?_, List.prefix_refl acc⟩
    unfold pySplitAux
    rw [if_neg hacc]
  | cons c cs' ih =>
    intro acc hacc
    unfold pySplitAux
    by_cases hc : pyIsSpace c = true
    · rw [if_pos hc, if_neg hacc]
      exact ⟨acc, pySplitAux cs' [], rfl, List.prefix_refl acc⟩
    · rw [if_neg hc]
      rcases ih (acc ++ [c]) (by simp) with ⟨t, ts, heq, hpre⟩
      exact ⟨t, ts, heq, (List.prefix_append acc [c]).trans hpre⟩

/-- `parseLine` never stores an empty clause. -/
theorem parseLine_nonempty (st st' : Int × List Clause) (raw : List Char)
    (h : parseLine st raw = some st') (hst : ∀ cl ∈ st.2, cl ≠ []) :
    ∀ cl ∈ st'.2, cl ≠ [] := by
  unfold parseLine at h
  dsimp only at h
  split at h
  · cases h; exact hst
  · split at h
    · cases h; exact hst
    · split at h
      · -- problem line
        split at h
        · cases h
        · split at h
          · split at h
            · cases h
            · split at h
              · cases h
              · cases h; exact hst
          · cases h
      · -- clause line
        split at h
        · cases h
        · split at h
          · cases h; exact hst
          · rename_i lits hlits
            cases h
            intro cl hcl
            rcases List.mem_append.mp hcl with h' | h'
            · exact hst cl h'
            · rw [List.mem_singleton] at h'
              subst h'
              exact hlits

/-- Folding `parseLine` preserves clause nonemptiness. -/
theorem foldl_parseLine_nonempty :
    ∀ (lines : List (List Char)) (st fin : Int × List Clause),
      lines.foldlM parseLine st = some fin → (∀ cl ∈ st.2, cl ≠ []) →
      ∀ cl ∈ fin.2, cl ≠ [] := by
  intro lines
  induction lines with
  | nil =>
    intro st fin h hst
    cases h
    exact hst
  | cons l ls ih =>
    intro st fin h hst
    rw [List.foldlM_cons] at h
    cases hp : parseLine st l with
    | none => rw [hp] at h; cases h
    | some st' =>
      rw [hp] at h
      exact ih st' fin h (parseLine_nonempty st st' l hp hst)

/-- C10 counterexample: the claim additionally asserts that a clause line
whose literals are all zero is silently dropped; but the line `-0 0` has all
its literals equal to zero (its only non-terminator token `-0` parses to `0`)
and the clause `[0]` is nevertheless stored. -/
theorem parse_dimacs_zero_literal_stored :
    parse_dimacs ("p cnf 1 1\n-0 0\n").data = some ⟨1, [[0]]⟩ ∧
    ([0] : Clause).all (fun l => l = 0) = true := by
  refine ⟨by decide, by decide⟩

/-- C10 (amended): every clause stored by `parse_dimacs` is nonempty, and a
line all of whose whitespace-separated tokens are literally `0` leaves the
parser state unchanged (the line is silently dropped).  Lines with tokens such
as `-0` are, however, parsed and stored, so "dropped" cannot be read as "all
literals are zero". -/
theorem parse_dimacs_clauses_nonempty :
    (∀ (text : List Char) (F : CNF), parse_dimacs text = some F →
      ∀ cl ∈ F.clauses, cl ≠ []) ∧
    (∀ (st : Int × List Clause) (raw : List Char),
      (pySplit (pyStrip raw)).all (fun t => t = ['0']) = true →
      parseLine st raw = some st) := by
  constructor
  · intro text F h cl hcl
    unfold parse_dimacs at h
    cases hf : (splitlines text).foldlM parseLine ((0 : Int), ([] : List Clause)) with
    | none => rw [hf] at h; cases h
    | some fin =>
      rw [hf] at h
      cases h
      exact foldl_parseLine_nonempty _ _ _ hf (by intro cl' h'; cases h') cl hcl
  · intro st raw hz
    unfold parseLine
    dsimp only
    by_cases hs : pyStrip raw = []
    · rw [if_pos hs]
    · rw [if_neg hs]
      obtain ⟨c, cs, hcons⟩ := List.exists_cons_of_ne_nil hs
      have hcsp : pyIsSpace c = false :=
        pyStrip_head raw c (by rw [hcons]; rfl)
      have htok : ∃ t ts, pySplit (pyStrip raw) = t :: ts ∧ [c] <+: t := by
        rw [hcons]
        unfold pySplit pySplitAux
        rw [if_neg (by rw [hcsp]; exact Bool.false_ne_true)]
        exact pySplitAux_first cs [c] (by simp)
      obtain ⟨t, ts, hsp, hpre⟩ := htok
      have ht0 : t = ['0'] := by
        have := List.all_eq_true.mp hz t (by rw [hsp]; exact List.mem_cons_self _ _)
        simpa using this
      have hc0 : c = '0' := by
        rw [ht0] at hpre
        rcases hpre with ⟨r, hr⟩
        have hr' : c :: r = ['0'] := by simpa using hr
        exact (List.cons_eq_cons.mp hr').1
      have hhead : (pyStrip raw).head? = some '0' := by
        rw [hcons, hc0]
        rfl
      rw [if_neg (by rw [hhead]; simp), if_neg (by rw [hhead]; simp)]
      have hfilter : (pySplit (pyStrip raw)).filter (fun t => t ≠ ['0']) = [] := by
        rw [List.filter_eq_nil_iff]
        intro t' ht'
        have h0 : t' = ['0'] := by simpa using List.all_eq_true.mp hz t' ht'
        simp [h0]
      rw [hfilter]
      rfl

/-- C10 witness: the theorem applied at a concrete text (for the nonemptiness
part) and a concrete all-zero clause line (for the dropping part). -/
theorem parse_dimacs_clauses_nonempty_witness :
    ([1, 2] : Clause) ≠ [] ∧
    parseLine ((0 : Int), ([] : List Clause)) ['0', ' ', '0'] = some (0, []) := by
  constructor
  · exact parse_dimacs_clauses_nonempty.1 ("p cnf 2 1\n1 2 0\n").data ⟨2, [[1, 2]]⟩
      (by decide) [1, 2] (by decide)
  · exact parse_dimacs_clauses_nonempty.2 ((0 : Int), ([] : List Clause)) ['0', ' ', '0']
      (by decide)

/-- `mapM pyInt` fails exactly when some token is unparsable. -/
theorem mapM_pyInt_eq_none_iff (toks : List (List Char)) :
    toks.mapM pyInt = none ↔ ∃ t ∈ toks, pyInt t = none := by
  induction toks with
  | nil =>
    constructor
    · intro h; cases h
    · rintro ⟨t, ht, _⟩; cases ht
  | cons t ts ih =>
    rw [List.mapM_cons]
    cases hp : pyInt t with
    | none =>
      constructor
      · intro _; exact ⟨t, List.mem_cons_self _ _, hp⟩
      · intro _; rfl
    | some v =>
      cases hm : ts.mapM pyInt with
      | none =>
        constructor
        · intro _
          rcases ih.mp hm with ⟨t', ht', hnone⟩
          exact ⟨t', List.mem_cons_of_mem _ ht', hnone⟩
        · intro _; rfl
      | some vs =>
        constructor
        · intro hcontra; cases hcontra
        · rintro ⟨t', ht', hnone⟩
          rcases List.mem_cons.mp ht' with h' | h'
          · subst h'; rw [hp] at hnone; cases hnone
          · exact absurd (ih.mpr ⟨t', h', hnone⟩) (by rw [hm]; exact Option.some_ne_none vs)

/-- One line fails in `parseLine` exactly when `lineBad` says so, independently
of the parser state. -/
theorem parseLine_none_iff (st : Int × List Clause) (raw : List Char) :
    parseLine st raw = none ↔ lineBad raw = true := by
  unfold parseLine lineBad
  dsimp only
  by_cases hs : pyStrip raw = []
  · rw [if_pos hs, if_pos hs]
    simp
  · rw [if_neg hs, if_neg hs]
    by_cases hc : (pyStrip raw).head? = some 'c'
    · rw [if_pos hc, if_pos hc]
      simp
    · rw [if_neg hc, if_neg hc]
      by_cases hp : (pyStrip raw).head? = some 'p'
      · rw [if_pos hp, if_pos hp]
        cases h1 : (pySplit (pyStrip raw)).get? 1 with
        | none => simp
        | some t1 =>
          dsimp only
          by_cases hcnf : t1 = ['c', 'n', 'f']
          · rw [if_pos hcnf, if_pos hcnf]
            cases h2 : (pySplit (pyStrip raw)).get? 2 with
            | none => simp
            | some t2 =>
              dsimp only
              cases hi : pyInt t2 with
              | none => simp
              | some n => simp
          · rw [if_neg hcnf, if_neg hcnf]
            simp
      · rw [if_neg hp, if_neg hp]
        cases hm : ((pySplit (pyStrip raw)).filter (fun t => t ≠ ['0'])).mapM pyInt with
        | none =>
          simp only [hm, List.any_eq_true]
          constructor
          · intro _
            rcases mapM_pyInt_eq_none_iff _ |>.mp hm with ⟨t', ht', hnone⟩
            exact ⟨t', ht', by rw [hnone]; rfl⟩
          · intro _; trivial
        | some lits =>
          simp only [hm]
          constructor
          · intro hcontra
            split at hcontra <;> cases hcontra
          · rw [List.any_eq_true]
            rintro ⟨t', ht', hnone⟩
            have : pyInt t' = none := Option.isNone_iff_eq_none.mp hnone
            exact absurd (mapM_pyInt_eq_none_iff _ |>.mpr ⟨t', ht', this⟩)
              (by rw [hm]; exact Option.some_ne_none lits)

/-- Folding `parseLine` fails exactly when some line is bad. -/
theorem foldl_parseLine_none_iff :
    ∀ (lines : List (List Char)) (st : Int × List Clause),
      lines.foldlM parseLine st = none ↔ lines.any lineBad = true := by
  intro lines
  induction lines with
  | nil =>
    intro st
    constructor
    · intro h; cases h
    · intro h; cases h
  | cons l ls ih =>
    intro st
    rw [List.foldlM_cons, List.any_cons]
    cases hp : parseLine st l with
    | none =>
      have hb : lineBad l = true := (parseLine_none_iff st l).mp hp
      simp [hb]
    | some st' =>
      have hb : lineBad l = false := by
        rw [← Bool.not_eq_true]
        intro hbad
        rw [(parseLine_none_iff st l).mpr hbad] at hp
        cases hp
      simp only [hp, hb, Bool.false_or]
      exact ih st'

/-- C4 counterexample: the claim requires `parse_dimacs` to fail on an input
with no problem line at all; but on `"1 2 0"` (which contains no line whose
stripped form starts with `p`) the parser succeeds and infers `num_vars` from
the literals. -/
theorem parse_dimacs_no_problem_line_succeeds :
    parse_dimacs ("1 2 0").data = some ⟨2, [[1, 2]]⟩ ∧
    (splitlines ("1 2 0").data).all
      (fun l => !(decide ((pyStrip l).head? = some 'p'))) = true := by
  refine ⟨by decide, by decide⟩

/-- C4 (amended): `parse_dimacs` fails exactly when some line, after
stripping, is nonempty, is not a comment, and either is a `p` line that is
malformed — fewer than two further tokens, second token not literally `cnf`,
or third token unparsable as an integer — or is a clause line containing a
non-`0` token unparsable as an integer.  A missing problem line does not by
itself cause a failure. -/
theorem parse_dimacs_fails_iff (text : List Char) :
    parse_dimacs text = none ↔ (splitlines text).any lineBad = true := by
  unfold parse_dimacs
  rw [Option.map_eq_none']
  exact foldl_parseLine_none_iff (splitlines text) ((0 : Int), ([] : List Clause))

/-- C4 witness: the equivalence applied at a concrete failing input (bad
problem-line format token) and the failure evaluated. -/
theorem parse_dimacs_fails_iff_witness :
    parse_dimacs ("p xnf 3 2\n1 0\n").data = none :=
  (parse_dimacs_fails_iff ("p xnf 3 2\n1 0\n").data).mpr (by decide)

/-!
Lemmas for the DIMACS round trip (claim C3): correctness of the decimal
printer against the decimal reader, then of line splitting against line
joining and token splitting against token joining.
-/

theorem digitChar_isDigit (n : Nat) : (digitChar n).isDigit = true := by
  unfold digitChar
  split_ifs <;> decide

theorem digitChar_val : ∀ n, n < 10 → (digitChar n).toNat - 48 = n := by decide

theorem digitChar_eq_zero : ∀ n, n < 10 → (digitChar n = '0' ↔ n = 0) := by decide

theorem char_ne_of_isDigit {c : Char} (h : c.isDigit = true) (d : Char)
    (hd : d.isDigit = false) : c ≠ d := by
  intro he
  rw [he, hd] at h
  cases h

theorem pyIsSpace_false_of_isDigit {c : Char} (h : c.isDigit = true) :
    pyIsSpace c = false := by
  unfold pyIsSpace
  have h1 : c ≠ ' ' := char_ne_of_isDigit h ' ' (by decide)
  have h2 : c ≠ '\t' := char_ne_of_isDigit h '\t' (by decide)
  have h3 : c ≠ '\n' := char_ne_of_isDigit h '\n' (by decide)
  have h4 : c ≠ '\r' := char_ne_of_isDigit h '\r' (by decide)
  have h5 : c ≠ '\x0b' := char_ne_of_isDigit h '\x0b' (by decide)
  have h6 : c ≠ '\x0c' := char_ne_of_isDigit h '\x0c' (by decide)
  simp [h1, h2, h3, h4, h5, h6]

theorem digitsToNat_append (xs : List Char) (m : Nat) (c : Char)
    (hxs : digitsToNat xs = some m) (hc : c.isDigit = true) :
    digitsToNat (xs ++ [c]) = some (10 * m + (c.toNat - 48)) := by
  unfold digitsToNat at hxs ⊢
  by_cases hne : xs = []
  · rw [if_pos hne] at hxs
    cases hxs
  · rw [if_neg hne] at hxs
    by_cases hall : xs.all Char.isDigit = true
    · rw [if_pos hall] at hxs
      injection hxs with hm
      rw [if_neg (by simp), if_pos (by
        rw [List.all_append]
        simp [hall, hc])]
      rw [List.foldl_append]
      rw [hm]
      rfl
    · rw [if_neg hall] at hxs
      cases hxs

theorem natToCharsAux_spec :
    ∀ (fuel n : Nat), n < fuel →
      natToCharsAux fuel n ≠ [] ∧ (∀ c ∈ natToCharsAux fuel n, c.isDigit = true) ∧
      digitsToNat (natToCharsAux fuel n) = some n := by
  intro fuel
  induction fuel with
  | zero => intro n hn; omega
  | succ fuel ih =>
    intro n hn
    unfold natToCharsAux
    by_cases h10 : n < 10
    · rw [if_pos h10]
      refine ⟨by simp, ?_, ?_⟩
      · intro c hc
        rw [List.mem_singleton] at hc
        subst hc
        exact digitChar_isDigit n
      · unfold digitsToNat
        rw [if_neg (by simp), if_pos (by simp [digitChar_isDigit])]
        simp [digitChar_val n h10]
    · rw [if_neg h10]
      have hdiv : n / 10 < fuel := by
        have := Nat.div_lt_self (by omega : 0 < n) (by omega : 1 < 10)
        omega
      rcases ih (n / 10) hdiv with ⟨hne, hdig, hval⟩
      refine ⟨by simp [hne], ?_, ?_⟩
      · intro c hc
        rcases List.mem_append.mp hc with h | h
        · exact hdig c h
        · rw [List.mem_singleton] at h
          subst h
          exact digitChar_isDigit _
      · rw [digitsToNat_append _ _ _ hval (digitChar_isDigit _)]
        rw [digitChar_val (n % 10) (Nat.mod_lt n (by omega))]
        congr 1
        omega

theorem natToChars_spec (n : Nat) :
    natToChars n ≠ [] ∧ (∀ c ∈ natToChars n, c.isDigit = true) ∧
      digitsToNat (natToChars n) = some n :=
  natToCharsAux_spec (n + 1) n (Nat.lt_succ_self n)

theorem pyInt_intToChars (i : Int) : pyInt (intToChars i) = some i := by
  unfold intToChars
  by_cases hneg : i < 0
  · rw [if_pos hneg]
    unfold pyInt
    dsimp only
    rw [if_pos rfl]
    rw [(natToChars_spec i.natAbs).2.2]
    simp only [Option.map_some', Int.ofNat_eq_natCast]
    congr 1
    omega
  · rw [if_neg hneg]
    rcases List.exists_cons_of_ne_nil (natToChars_spec i.natAbs).1 with ⟨c, rest, hc⟩
    have hcd : c.isDigit = true := by
      apply (natToChars_spec i.natAbs).2.1
      rw [hc]
      exact List.mem_cons_self _ _
    rw [hc]
    unfold pyInt
    dsimp only
    rw [if_neg (char_ne_of_isDigit hcd '-' (by decide)),
      if_neg (char_ne_of_isDigit hcd '+' (by decide))]
    rw [← hc, (natToChars_spec i.natAbs).2.2]
    simp only [Option.map_some', Int.ofNat_eq_natCast]
    congr 1
    omega

theorem intToChars_ne_nil (i : Int) : intToChars i ≠ [] := by
  unfold intToChars
  split
  · simp
  · exact (natToChars_spec i.natAbs).1

theorem intToChars_chars (i : Int) :
    ∀ c ∈ intToChars i, c.isDigit = true ∨ c = '-' := by
  unfold intToChars
  split
  · intro c hc
    rcases List.mem_cons.mp hc with h | h
    · exact Or.inr h
    · exact Or.inl ((natToChars_spec i.natAbs).2.1 c h)
  · intro c hc
    exact Or.inl ((natToChars_spec i.natAbs).2.1 c hc)

theorem intToChars_not_space (i : Int) :
    ∀ c ∈ intToChars i, pyIsSpace c = false := by
  intro c hc
  rcases intToChars_chars i c hc with h | h
  · exact pyIsSpace_false_of_isDigit h
  · subst h
    decide

theorem intToChars_ne_newline (i : Int) : ∀ c ∈ intToChars i, c ≠ '\n' := by
  intro c hc
  rcases intToChars_chars i c hc with h | h
  · exact char_ne_of_isDigit h '\n' (by decide)
  · subst h
    decide

theorem intToChars_eq_zero_chars (i : Int) (h : intToChars i = ['0']) : i = 0 := by
  unfold intToChars at h
  split at h
  · cases h
  · have := (natToChars_spec i.natAbs).2.2
    rw [h] at this
    have h0 : digitsToNat ['0'] = some 0 := by decide
    rw [h0] at this
    injection this with hv
    omega

theorem splitlines_newline (cs : List Char) :
    splitlines ('\n' :: cs) = [] :: splitlines cs := by
  conv_lhs => unfold splitlines
  rw [if_pos rfl]

theorem splitlines_cons_ne (c : Char) (cs : List Char) (hc : c ≠ '\n') :
    splitlines (c :: cs) =
      match splitlines cs with
      | [] => [[c]]
      | l :: ls => (c :: l) :: ls := by
  conv_lhs => unfold splitlines
  rw [if_neg hc]

theorem splitlines_append_newline :
    ∀ (l rest : List Char), '\n' ∉ l →
      splitlines (l ++ '\n' :: rest) = l :: splitlines rest := by
  intro l
  induction l with
  | nil =>
    intro rest _
    rw [List.nil_append, splitlines_newline]
  | cons c l' ih =>
    intro rest hnl
    have hc : c ≠ '\n' := fun h => hnl (h ▸ List.mem_cons_self c l')
    rw [List.cons_append, splitlines_cons_ne c _ hc,
      ih rest (fun h => hnl (List.mem_cons_of_mem c h))]

theorem splitlines_join :
    ∀ (ls : List (List Char)), ls ≠ [] → (∀ l ∈ ls, '\n' ∉ l) →
      splitlines (List.intercalate ['\n'] ls ++ ['\n']) = ls := by
  intro ls
  induction ls with
  | nil => intro h _; cases h rfl
  | cons l ls' ih =>
    intro _ hnl
    cases ls' with
    | nil =>
      have h1 : List.intercalate ['\n'] [l] = l := by simp [List.intercalate]
      rw [h1, show (['\n'] : List Char) = '\n' :: [] from rfl,
        splitlines_append_newline l [] (hnl l (List.mem_cons_self _ _))]
      rfl
    | cons l2 ls'' =>
      have hstep : List.intercalate ['\n'] (l :: l2 :: ls'') =
          l ++ ['\n'] ++ List.intercalate ['\n'] (l2 :: ls'') := by
        simp [List.intercalate, List.intersperse]
      rw [hstep, List.append_assoc, List.append_assoc, List.singleton_append,
        splitlines_append_newline l _ (hnl l (List.mem_cons_self _ _)),
        ih (by simp) (fun x hx => hnl x (List.mem_cons_of_mem l hx))]

theorem pySplitAux_nonspace (c : Char) (cs acc : List Char)
    (hc : pyIsSpace c = false) :
    pySplitAux (c :: cs) acc = pySplitAux cs (acc ++ [c]) := by
  conv_lhs => unfold pySplitAux
  rw [if_neg (by rw [hc]; exact Bool.false_ne_true)]

theorem pySplitAux_token :
    ∀ (t rest acc : List Char), (∀ c ∈ t, pyIsSpace c = false) →
      pySplitAux (t ++ rest) acc = pySplitAux rest (acc ++ t) := by
  intro t
  induction t with
  | nil =>
    intro rest acc _
    rw [List.nil_append, List.append_nil]
  | cons c t' ih =>
    intro rest acc hsp
    rw [List.cons_append,
      pySplitAux_nonspace c _ acc (hsp c (List.mem_cons_self _ _)),
      ih rest (acc ++ [c]) (fun x hx => hsp x (List.mem_cons_of_mem c hx)),
      List.append_assoc]
    rfl

theorem pySplitAux_final (acc : List Char) (h : acc ≠ []) :
    pySplitAux [] acc = [acc] := by
  conv_lhs => unfold pySplitAux
  rw [if_neg h]

theorem pySplitAux_space (rest acc : List Char) (h : acc ≠ []) :
    pySplitAux (' ' :: rest) acc = acc :: pySplitAux rest [] := by
  conv_lhs => unfold pySplitAux
  rw [if_pos (by decide), if_neg h]

/-- Splitting a space-joined token list recovers the tokens, provided each
token is nonempty and whitespace-free. -/
theorem pySplit_intercalate :
    ∀ (toks : List (List Char)),
      (∀ t ∈ toks, t ≠ [] ∧ ∀ c ∈ t, pyIsSpace c = false) →
      pySplit (List.intercalate [' '] toks) = toks := by
  intro toks
  induction toks with
  | nil => intro _; rfl
  | cons t ts ih =>
    intro hcond
    rcases hcond t (List.mem_cons_self _ _) with ⟨hne, hsp⟩
    cases ts with
    | nil =>
      unfold pySplit
      have : List.intercalate [' '] [t] = t := by simp [List.intercalate]
      rw [this, ← List.append_nil t, pySplitAux_token t [] [] hsp,
        List.nil_append, pySplitAux_final t hne]
      simp
    | cons t2 ts' =>
      unfold pySplit
      have hstep : List.intercalate [' '] (t :: t2 :: ts') =
          t ++ ' ' :: List.intercalate [' '] (t2 :: ts') := by
        simp [List.intercalate, List.intersperse]
      rw [hstep, pySplitAux_token t _ [] hsp, List.nil_append,
        pySplitAux_space _ t hne]
      have := ih (fun x hx => hcond x (List.mem_cons_of_mem t hx))
      unfold pySplit at this
      rw [this]

/-- Appending one more token to a nonempty space-joined list. -/
theorem intercalate_append_single (xs : List (List Char)) (y : List Char)
    (h : xs ≠ []) :
    List.intercalate [' '] xs ++ ' ' :: y = List.intercalate [' '] (xs ++ [y]) := by
  induction xs with
  | nil => cases h rfl
  | cons x xs' ih =>
    cases xs' with
    | nil => simp [List.intercalate, List.intersperse]
    | cons x2 xs'' =>
      have h1 : List.intercalate [' '] (x :: x2 :: xs'') =
          x ++ ' ' :: List.intercalate [' '] (x2 :: xs'') := by
        simp [List.intercalate, List.intersperse]
      have h2 : List.intercalate [' '] ((x :: x2 :: xs'') ++ [y]) =
          x ++ ' ' :: List.intercalate [' '] ((x2 :: xs'') ++ [y]) := by
        simp [List.intercalate, List.intersperse]
      rw [h1, h2, List.append_assoc]
      rw [← ih (by simp)]
      simp

/-- A string whose first and last characters are not whitespace strips to
itself. -/
theorem pyStrip_eq_self (c d : Char) (mid : List Char)
    (hc : pyIsSpace c = false) (hd : pyIsSpace d = false)
    (h : ∃ mid', c :: mid = mid' ++ [d]) :
    pyStrip (c :: mid) = c :: mid := by
  rcases h with ⟨mid', hmid⟩
  unfold pyStrip
  have h1 : (c :: mid).dropWhile pyIsSpace = c :: mid := by
    rw [List.dropWhile_cons, if_neg (by rw [hc]; exact Bool.false_ne_true)]
  rw [h1, hmid, List.reverse_append]
  simp only [List.reverse_cons, List.reverse_nil, List.nil_append, List.singleton_append]
  rw [List.dropWhile_cons, if_neg (by rw [hd]; exact Bool.false_ne_true)]
  simp

theorem intercalate_cons_exists (t : List Char) (ts : List (List Char)) :
    ∃ r, List.intercalate [' '] (t :: ts) = t ++ r := by
  cases ts with
  | nil => exact ⟨[], by simp [List.intercalate]⟩
  | cons t2 ts' =>
    refine ⟨' ' :: List.intercalate [' '] (t2 :: ts'), ?_⟩
    simp [List.intercalate, List.intersperse]

theorem mem_intercalate_space :
    ∀ (toks : List (List Char)) (c : Char),
      c ∈ List.intercalate [' '] toks → c = ' ' ∨ ∃ t ∈ toks, c ∈ t := by
  intro toks
  induction toks with
  | nil => intro c hc; rw [show List.intercalate [' '] [] = [] from rfl] at hc; cases hc
  | cons t ts ih =>
    intro c hc
    cases ts with
    | nil =>
      rw [show List.intercalate [' '] [t] = t by simp [List.intercalate]] at hc
      exact Or.inr ⟨t, List.mem_cons_self _ _, hc⟩
    | cons t2 ts' =>
      rw [show List.intercalate [' '] (t :: t2 :: ts') =
          t ++ ' ' :: List.intercalate [' '] (t2 :: ts') by
        simp [List.intercalate, List.intersperse]] at hc
      rcases List.mem_append.mp hc with h | h
      · exact Or.inr ⟨t, List.mem_cons_self _ _, h⟩
      · rcases List.mem_cons.mp h with h | h
        · exact Or.inl h
        · rcases ih c h with h' | ⟨t', ht', hc'⟩
          · exact Or.inl h'
          · exact Or.inr ⟨t', List.mem_cons_of_mem _ ht', hc'⟩

theorem foldl_max_id (cl : List Int) (n : Int) (h : ∀ l ∈ cl, absI l ≤ n) :
    cl.foldl (fun a l => max a (absI l)) n = n := by
  induction cl with
  | nil => rfl
  | cons x xs ih =>
    rw [List.foldl_cons, max_eq_left (h x (List.mem_cons_self _ _))]
    exact ih (fun l hl => h l (List.mem_cons_of_mem x hl))

theorem mapM_pyInt_map_intToChars (cl : List Int) :
    (cl.map intToChars).mapM pyInt = some cl := by
  induction cl with
  | nil => rfl
  | cons l cl' ih =>
    rw [List.map_cons, List.mapM_cons, pyInt_intToChars, ih]
    rfl

/-- Parsing the problem line emitted by `to_dimacs` sets `num_vars` and keeps
the clauses. -/
theorem parseLine_problem (st : Int × List Clause) (n : Int) (m : Nat) :
    parseLine st (['p', ' ', 'c', 'n', 'f', ' '] ++ intToChars n ++
      [' '] ++ natToChars m) = some (n, st.2) := by
  set A := intToChars n with hA
  set B := natToChars m with hB
  have hAne : A ≠ [] := intToChars_ne_nil n
  have hBne : B ≠ [] := (natToChars_spec m).1
  have hAsp : ∀ c ∈ A, pyIsSpace c = false := intToChars_not_space n
  have hBsp : ∀ c ∈ B, pyIsSpace c = false := fun c hc =>
    pyIsSpace_false_of_isDigit ((natToChars_spec m).2.1 c hc)
  have hform : (['p', ' ', 'c', 'n', 'f', ' '] ++ A ++ [' '] ++ B) =
      List.intercalate [' '] [['p'], ['c', 'n', 'f'], A, B] := by
    simp [List.intercalate, List.intersperse]
  have hsplit : pySplit (['p', ' ', 'c', 'n', 'f', ' '] ++ A ++ [' '] ++ B) =
      [['p'], ['c', 'n', 'f'], A, B] := by
    rw [hform]
    apply pySplit_intercalate
    intro t ht
    rcases List.mem_cons.mp ht with h | h
    · subst h; exact ⟨by simp, by intro c hc; rw [List.mem_singleton] at hc; subst hc; rfl⟩
    rcases List.mem_cons.mp h with h | h
    · subst h
      refine ⟨by simp, ?_⟩
      intro c hc
      rcases List.mem_cons.mp hc with h' | h'
      · subst h'; rfl
      rcases List.mem_cons.mp h' with h' | h'
      · subst h'; rfl
      · rw [List.mem_singleton] at h'; subst h'; rfl
    rcases List.mem_cons.mp h with h | h
    · subst h; exact ⟨hAne, hAsp⟩
    · rw [List.mem_singleton] at h; subst h; exact ⟨hBne, hBsp⟩
  rcases List.eq_nil_or_concat B with hBnil | ⟨Binit, d, hBd⟩
  · cases hBne hBnil
  have hd : pyIsSpace d = false := by
    apply hBsp
    rw [hBd, List.concat_eq_append]
    simp
  have hstrip : pyStrip (['p', ' ', 'c', 'n', 'f', ' '] ++ A ++ [' '] ++ B) =
      ['p', ' ', 'c', 'n', 'f', ' '] ++ A ++ [' '] ++ B := by
    have hcons : (['p', ' ', 'c', 'n', 'f', ' '] ++ A ++ [' '] ++ B) =
        'p' :: ([' ', 'c', 'n', 'f', ' '] ++ A ++ [' '] ++ B) := by simp
    rw [hcons]
    apply pyStrip_eq_self 'p' d _ (by decide) hd
    refine ⟨['p', ' ', 'c', 'n', 'f', ' '] ++ A ++ [' '] ++ Binit, ?_⟩
    rw [← hcons, hBd, List.concat_eq_append]
    simp
  unfold parseLine
  dsimp only
  rw [hstrip]
  rw [if_neg (by simp), if_neg (by simp [List.head?_append_of_ne_nil]),
    if_pos (by simp [List.head?_append_of_ne_nil])]
  rw [hsplit]
  have hg1 : ([['p'], ['c', 'n', 'f'], A, B].get? 1) = some ['c', 'n', 'f'] := rfl
  have hg2 : ([['p'], ['c', 'n', 'f'], A, B].get? 2) = some A := rfl
  rw [hg1]
  dsimp only
  rw [if_pos rfl, hg2]
  dsimp only
  rw [hA, pyInt_intToChars]

/-- Parsing one clause line emitted by `to_dimacs`: the clause is appended and
`num_vars` is unchanged when it already bounds the clause's magnitudes. -/
theorem parseLine_clause (n : Int) (done : List Clause) (cl : Clause)
    (hne : cl ≠ []) (hlits : ∀ l ∈ cl, l ≠ 0 ∧ absI l ≤ n) :
    parseLine (n, done)
      (List.intercalate [' '] (cl.map intToChars) ++ [' ', '0']) =
      some (n, done ++ [cl]) := by
  have hmapne : cl.map intToChars ≠ [] := by
    intro h
    exact hne (List.map_eq_nil_iff.mp h)
  have hform : List.intercalate [' '] (cl.map intToChars) ++ [' ', '0'] =
      List.intercalate [' '] (cl.map intToChars ++ [['0']]) := by
    rw [← intercalate_append_single _ _ hmapne]
  have htoks : ∀ t ∈ cl.map intToChars ++ [['0']],
      t ≠ [] ∧ ∀ c ∈ t, pyIsSpace c = false := by
    intro t ht
    rcases List.mem_append.mp ht with h | h
    · rcases List.mem_map.mp h with ⟨l, _, hl⟩
      subst hl
      exact ⟨intToChars_ne_nil l, intToChars_not_space l⟩
    · rw [List.mem_singleton] at h
      subst h
      exact ⟨by simp, by intro c hc; rw [List.mem_singleton] at hc; subst hc; rfl⟩
  have hsplit : pySplit (List.intercalate [' '] (cl.map intToChars) ++ [' ', '0']) =
      cl.map intToChars ++ [['0']] := by
    rw [hform]
    exact pySplit_intercalate _ htoks
  -- head structure of the line
  rcases List.exists_cons_of_ne_nil hne with ⟨l1, clr, hcl1⟩
  rcases List.exists_cons_of_ne_nil (intToChars_ne_nil l1) with ⟨c, crest, hc⟩
  have hcprops : c.isDigit = true ∨ c = '-' := by
    apply intToChars_chars l1
    rw [hc]
    exact List.mem_cons_self _ _
  have hcsp : pyIsSpace c = false := by
    rcases hcprops with h | h
    · exact pyIsSpace_false_of_isDigit h
    · subst h; decide
  have hcnotc : c ≠ 'c' := by
    rcases hcprops with h | h
    · exact char_ne_of_isDigit h 'c' (by decide)
    · subst h; decide
  have hcnotp : c ≠ 'p' := by
    rcases hcprops with h | h
    · exact char_ne_of_isDigit h 'p' (by decide)
    · subst h; decide
  rcases intercalate_cons_exists (intToChars l1) (clr.map intToChars) with ⟨r, hr⟩
  have hline : List.intercalate [' '] (cl.map intToChars) ++ [' ', '0'] =
      c :: (crest ++ r ++ [' ', '0']) := by
    rw [hcl1, List.map_cons, hr, hc]
    simp
  have hstrip : pyStrip (List.intercalate [' '] (cl.map intToChars) ++ [' ', '0']) =
      List.intercalate [' '] (cl.map intToChars) ++ [' ', '0'] := by
    rw [hline]
    apply pyStrip_eq_self c '0' _ hcsp (by decide)
    exact ⟨c :: (crest ++ r ++ [' ']), by simp⟩
  unfold parseLine
  dsimp only
  rw [hstrip]
  rw [if_neg (by rw [hline]; simp),
    if_neg (by rw [hline]; simp [hcnotc]),
    if_neg (by rw [hline]; simp [hcnotp])]
  rw [hsplit]
  have hfilter : (cl.map intToChars ++ [['0']]).filter (fun t => t ≠ ['0']) =
      cl.map intToChars := by
    rw [List.filter_append]
    have h1 : ([['0']] : List (List Char)).filter (fun t => t ≠ ['0']) = [] := by decide
    have h2 : (cl.map intToChars).filter (fun t => t ≠ ['0']) = cl.map intToChars := by
      rw [List.filter_eq_self]
      intro t ht
      rcases List.mem_map.mp ht with ⟨l, hl, hlt⟩
      subst hlt
      have : intToChars l ≠ ['0'] :=
        fun h => (hlits l hl).1 (intToChars_eq_zero_chars l h)
      simp [this]
    rw [h1, h2, List.append_nil]
  rw [hfilter, mapM_pyInt_map_intToChars]
  dsimp only
  rw [if_neg hne]
  rw [foldl_max_id cl n (fun l hl => (hlits l hl).2)]

theorem foldlM_clause_lines :
    ∀ (cls : List Clause) (n : Int) (done : List Clause),
      (∀ cl ∈ cls, cl ≠ [] ∧ ∀ l ∈ cl, l ≠ 0 ∧ absI l ≤ n) →
      (cls.map (fun cl =>
        List.intercalate [' '] (cl.map intToChars) ++ [' ', '0'])).foldlM
        parseLine (n, done) = some (n, done ++ cls) := by
  intro cls
  induction cls with
  | nil =>
    intro n done _
    simp
  | cons cl rest ih =>
    intro n done hc
    rw [List.map_cons, List.foldlM_cons]
    rcases hc cl (List.mem_cons_self _ _) with ⟨hne, hlits⟩
    rw [parseLine_clause n done cl hne hlits]
    show (rest.map (fun cl =>
        List.intercalate [' '] (cl.map intToChars) ++ [' ', '0'])).foldlM
      parseLine (n, done ++ [cl]) = some (n, done ++ cl :: rest)
    rw [ih n (done ++ [cl]) (fun x hx => hc x (List.mem_cons_of_mem _ hx)),
      List.append_assoc]
    rfl

/-- C3 counterexample: the claim quantifies over every Formula, including ones
with an empty clause, a zero literal, or `num_vars` below a literal magnitude.
The formula `CNF(0, [[], [5, 0]])` round-trips to `CNF(5, [[5]])`: the empty
clause is dropped, the zero literal is stripped, and `num_vars` is raised. -/
theorem to_dimacs_roundtrip_cex :
    parse_dimacs (to_dimacs ⟨0, [[], [5, 0]]⟩) = some ⟨5, [[5]]⟩ ∧
    (⟨5, [[5]]⟩ : CNF) ≠ ⟨0, [[], [5, 0]]⟩ := by
  refine ⟨by decide, by decide⟩

/-- C3 (amended): for every Formula whose clauses are all nonempty, contain no
zero literal, and whose `num_vars` is at least every literal magnitude (the
documented Formula invariant, automatic for formulas built through `add_clause`
from such clauses), `parse_dimacs (to_dimacs F)` returns a CNF with the same
`num_vars` and the same clause list. -/
theorem to_dimacs_roundtrip (F : CNF)
    (h : ∀ cl ∈ F.clauses, cl ≠ [] ∧ ∀ l ∈ cl, l ≠ 0 ∧ absI l ≤ F.num_vars) :
    parse_dimacs (to_dimacs F) = some F := by
  unfold to_dimacs parse_dimacs
  dsimp only
  have hnn : ∀ l ∈ ((['p', ' ', 'c', 'n', 'f', ' '] ++ intToChars F.num_vars ++
      [' '] ++ natToChars F.clauses.length) ::
      F.clauses.map (fun cl =>
        List.intercalate [' '] (cl.map intToChars) ++ [' ', '0'])),
      '\n' ∉ l := by
    intro l hl
    rcases List.mem_cons.mp hl with hmem | hmem
    · subst hmem
      intro hin
      rcases List.mem_append.mp hin with h' | h'
      · rcases List.mem_append.mp h' with h'' | h''
        · rcases List.mem_append.mp h'' with h3 | h3
          · exact absurd h3 (by decide)
          · exact intToChars_ne_newline F.num_vars '\n' h3 rfl
        · exact absurd h'' (by decide)
      · exact char_ne_of_isDigit
          ((natToChars_spec F.clauses.length).2.1 '\n' h') '\n' (by decide) rfl
    · rcases List.mem_map.mp hmem with ⟨cl, _, hcl⟩
      subst hcl
      intro hin
      rcases List.mem_append.mp hin with h' | h'
      · rcases mem_intercalate_space _ '\n' h' with h'' | ⟨t, ht, hc'⟩
        · cases h''
        · rcases List.mem_map.mp ht with ⟨l', _, hl'⟩
          subst hl'
          exact intToChars_ne_newline l' '\n' hc' rfl
      · exact absurd h' (by decide)
  rw [splitlines_join _ (by simp) hnn]
  rw [List.foldlM_cons,
    parseLine_problem ((0 : Int), ([] : List Clause)) F.num_vars F.clauses.length]
  show Option.map (fun st => CNF.mk st.1 st.2)
      ((F.clauses.map (fun cl =>
        List.intercalate [' '] (cl.map intToChars) ++ [' ', '0'])).foldlM
        parseLine (F.num_vars, [])) = some F
  rw [foldlM_clause_lines F.clauses F.num_vars [] h]
  simp

/-- C3 witness: the amended round trip applied to a concrete well-formed
formula (the one from the repository's own DIMACS test). -/
theorem to_dimacs_roundtrip_witness :
    parse_dimacs (to_dimacs ⟨3, [[1, -2], [-3]]⟩) = some ⟨3, [[1, -2], [-3]]⟩ :=
  to_dimacs_roundtrip ⟨3, [[1, -2], [-3]]⟩ (by decide)

/-!
Termination of the solver (claim C6).  The Python `while` loops and recursion
are modelled with fuel; here we prove that the fuel chosen in `dpll` always
suffices.  The decreasing measure is the number of distinct variables that
occur in the clause list and are unassigned: unit propagation, pure-literal
elimination and decisions only ever shrink the clause material and only ever
add assignments (except for `del assign[v]`, which is handled explicitly), and
every productive step assigns at least one previously unassigned clause
variable.
-/

theorem ref_refl (cls : List Clause) : Ref cls cls :=
  fun c hc => ⟨c, hc, fun _ hl => hl⟩

theorem ref_trans {c1 c2 c3 : List Clause} (h12 : Ref c1 c2) (h23 : Ref c2 c3) :
    Ref c1 c3 := by
  intro c hc
  rcases h23 c hc with ⟨b, hb, hsub⟩
  rcases h12 b hb with ⟨d, hd, hsub'⟩
  exact ⟨d, hd, fun l hl => hsub' l (hsub l hl)⟩

theorem ale_refl (a : Assign) : ALe a a := fun _ _ h => h

theorem ale_trans {a b c : Assign} (h1 : ALe a b) (h2 : ALe b c) : ALe a c :=
  fun v bb hv => h2 v bb (h1 v bb hv)

theorem alookup_aset_self : ∀ (a : Assign) (v : Int) (b : Bool),
    alookup (aset a v b) v = some b := by
  intro a v b
  induction a with
  | nil => simp [aset, alookup]
  | cons p rest ih =>
    unfold aset
    by_cases h : p.1 = v
    · rw [if_pos h]
      unfold alookup
      rw [if_pos h]
    · rw [if_neg h]
      unfold alookup
      rw [if_neg h]
      exact ih

theorem alookup_aset_ne : ∀ (a : Assign) (v : Int) (b : Bool) (w : Int), w ≠ v →
    alookup (aset a v b) w = alookup a w := by
  intro a v b w hw
  induction a with
  | nil =>
    unfold aset alookup
    rw [if_neg (fun h => hw h.symm)]
    rfl
  | cons p rest ih =>
    unfold aset
    by_cases h : p.1 = v
    · rw [if_pos h]
      unfold alookup
      by_cases h2 : p.1 = w
      · exact absurd (h2.symm.trans h) hw
      · rw [if_neg h2, if_neg h2]
    · rw [if_neg h]
      unfold alookup
      by_cases h2 : p.1 = w
      · rw [if_pos h2, if_pos h2]
      · rw [if_neg h2, if_neg h2]
        exact ih

theorem alookup_cons_eq (x : Int) (c : Bool) (rest : Assign) (w : Int) :
    alookup ((x, c) :: rest) w = if x = w then some c else alookup rest w := rfl

theorem alookup_adel_ne : ∀ (a : Assign) (v w : Int), w ≠ v →
    alookup (adel a v) w = alookup a w := by
  intro a v w hw
  induction a with
  | nil => rfl
  | cons p rest ih =>
    obtain ⟨x, c⟩ := p
    unfold adel at ih ⊢
    rw [List.filter_cons]
    by_cases h : x = v
    · rw [if_neg (by simp [h]), ih, alookup_cons_eq,
        if_neg (fun h2 : x = w => hw (h2.symm.trans h))]
    · rw [if_pos (by simp [h]), alookup_cons_eq, alookup_cons_eq, ih]

theorem alookup_adel_self : ∀ (a : Assign) (v : Int), alookup (adel a v) v = none := by
  intro a v
  induction a with
  | nil => rfl
  | cons p rest ih =>
    obtain ⟨x, c⟩ := p
    unfold adel at ih ⊢
    rw [List.filter_cons]
    by_cases h : x = v
    · rw [if_neg (by simp [h])]
      exact ih
    · rw [if_pos (by simp [h]), alookup_cons_eq, if_neg h]
      exact ih

theorem ale_aset (a : Assign) (v : Int) (b : Bool) (h : alookup a v = none) :
    ALe a (aset a v b) := by
  intro w c hw
  by_cases hv : w = v
  · subst hv
    rw [h] at hw
    cases hw
  · rw [alookup_aset_ne a v b w hv]
    exact hw

theorem mem_varsOf_of_mem {l : Int} {c : Clause} {cls : List Clause}
    (hl : l ∈ c) (hc : c ∈ cls) : absI l ∈ varsOf cls := by
  unfold varsOf
  rw [List.mem_toFinset]
  exact List.mem_map.mpr ⟨l, List.mem_flatten.mpr ⟨c, hc, hl⟩, rfl⟩

theorem varsOf_subset_of_ref {cls cls' : List Clause} (h : Ref cls cls') :
    varsOf cls' ⊆ varsOf cls := by
  intro v hv
  unfold varsOf at hv
  rw [List.mem_toFinset] at hv
  rcases List.mem_map.mp hv with ⟨l, hlmem, hlv⟩
  rcases List.mem_flatten.mp hlmem with ⟨c', hc', hl⟩
  rcases h c' hc' with ⟨c, hc, hsub⟩
  exact hlv ▸ mem_varsOf_of_mem (hsub l hl) hc

theorem unassigned_subset {cls cls' : List Clause} {a a' : Assign}
    (hr : Ref cls cls') (ha : ALe a a') :
    unassigned cls' a' ⊆ unassigned cls a := by
  intro v hv
  rw [unassigned, Finset.mem_filter] at hv ⊢
  refine ⟨varsOf_subset_of_ref hr hv.1, ?_⟩
  cases h : alookup a v with
  | none => rfl
  | some b =>
    have := ha v b h
    rw [hv.2] at this
    cases this

theorem mu_le {cls cls' : List Clause} {a a' : Assign}
    (hr : Ref cls cls') (ha : ALe a a') : mu cls' a' ≤ mu cls a :=
  Finset.card_le_card (unassigned_subset hr ha)

theorem mu_lt {cls cls' : List Clause} {a a' : Assign} {v : Int} {b : Bool}
    (hr : Ref cls cls') (ha : ALe a a') (hv : v ∈ varsOf cls)
    (hnone : alookup a v = none) (hsome : alookup a' v = some b) :
    mu cls' a' < mu cls a := by
  have hvin : v ∈ unassigned cls a := Finset.mem_filter.mpr ⟨hv, hnone⟩
  have hsub : unassigned cls' a' ⊆ (unassigned cls a).erase v := by
    intro w hw
    rw [Finset.mem_erase]
    refine ⟨?_, unassigned_subset hr ha hw⟩
    intro hwv
    subst hwv
    rw [unassigned, Finset.mem_filter] at hw
    rw [hw.2] at hsome
    cases hsome
  calc mu cls' a' ≤ ((unassigned cls a).erase v).card := Finset.card_le_card hsub
    _ < mu cls a := Finset.card_erase_lt_of_mem hvin

theorem simplifyUnit_ref (u : Int) :
    ∀ (cls cls' : List Clause), simplifyUnit u cls = some cls' → Ref cls cls' := by
  intro cls
  induction cls with
  | nil =>
    intro cls' h
    cases h
    intro c hc
    cases hc
  | cons cl rest ih =>
    intro cls' h
    unfold simplifyUnit at h
    dsimp only at h
    split at h
    · -- u ∈ cl: clause dropped
      intro c' hc'
      rcases ih cls' h c' hc' with ⟨c, hc, hsub⟩
      exact ⟨c, List.mem_cons_of_mem _ hc, hsub⟩
    · split at h
      · -- -u ∈ cl: literal stripped
        split at h
        · cases h
        · cases hs : simplifyUnit u rest with
          | none => rw [hs] at h; cases h
          | some cls₂ =>
            rw [hs] at h
            injection h with h1
            subst h1
            intro c' hc'
            rcases List.mem_cons.mp hc' with h' | h'
            · subst h'
              exact ⟨cl, List.mem_cons_self _ _, fun l hl => List.mem_of_mem_filter hl⟩
            · rcases ih cls₂ hs c' h' with ⟨c, hc, hsub⟩
              exact ⟨c, List.mem_cons_of_mem _ hc, hsub⟩
      · -- clause untouched
        cases hs : simplifyUnit u rest with
        | none => rw [hs] at h; cases h
        | some cls₂ =>
          rw [hs] at h
          injection h with h1
          subst h1
          intro c' hc'
          rcases List.mem_cons.mp hc' with h' | h'
          · subst h'
            exact ⟨c', List.mem_cons_self _ _, fun _ hl => hl⟩
          · rcases ih cls₂ hs c' h' with ⟨c, hc, hsub⟩
            exact ⟨c, List.mem_cons_of_mem _ hc, hsub⟩

theorem processUnits_ale :
    ∀ (us : List Int) (cls : List Clause) (a : Assign) (ch : Bool)
      (o : Option (List Clause)) (a' : Assign) (ch' : Bool),
      processUnits us cls a ch = (o, a', ch') → ALe a a' := by
  intro us
  induction us with
  | nil =>
    intro cls a ch o a' ch' h
    cases h
    exact ale_refl a
  | cons u rest ih =>
    intro cls a ch o a' ch' h
    unfold processUnits at h
    dsimp only at h
    cases hl : alookup a (absI u) with
    | some b =>
      rw [hl] at h
      dsimp only at h
      by_cases hb : b ≠ decide (u > 0)
      · rw [if_pos hb] at h
        cases h
        exact ale_refl a
      · rw [if_neg hb] at h
        exact ih _ _ _ _ _ _ h
    | none =>
      rw [hl] at h
      dsimp only at h
      have hale : ALe a (aset a (absI u) (decide (u > 0))) := ale_aset _ _ _ hl
      cases hs : simplifyUnit u cls with
      | none =>
        rw [hs] at h
        cases h
        exact hale
      | some cls₂ =>
        rw [hs] at h
        exact ale_trans hale (ih _ _ _ _ _ _ h)

theorem processUnits_ref :
    ∀ (us : List Int) (cls : List Clause) (a : Assign) (ch : Bool)
      (cls₂ : List Clause) (a' : Assign) (ch' : Bool),
      processUnits us cls a ch = (some cls₂, a', ch') → Ref cls cls₂ := by
  intro us
  induction us with
  | nil =>
    intro cls a ch cls₂ a' ch' h
    cases h
    exact ref_refl cls
  | cons u rest ih =>
    intro cls a ch cls₂ a' ch' h
    unfold processUnits at h
    dsimp only at h
    cases hl : alookup a (absI u) with
    | some b =>
      rw [hl] at h
      dsimp only at h
      by_cases hb : b ≠ decide (u > 0)
      · rw [if_pos hb] at h
        cases h
      · rw [if_neg hb] at h
        exact ih _ _ _ _ _ _ h
    | none =>
      rw [hl] at h
      dsimp only at h
      cases hs : simplifyUnit u cls with
      | none =>
        rw [hs] at h
        cases h
      | some cls₁ =>
        rw [hs] at h
        exact ref_trans (simplifyUnit_ref u cls cls₁ hs) (ih _ _ _ _ _ _ h)

theorem processUnits_new :
    ∀ (us : List Int) (cls : List Clause) (a : Assign)
      (o : Option (List Clause)) (a' : Assign),
      processUnits us cls a false = (o, a', true) →
      ∃ v, v ∈ us.map absI ∧ alookup a v = none ∧ ∃ b, alookup a' v = some b := by
  intro us
  induction us with
  | nil =>
    intro cls a o a' h
    simp only [processUnits, Prod.mk.injEq] at h
    exact absurd h.2.2 Bool.false_ne_true
  | cons u rest ih =>
    intro cls a o a' h
    unfold processUnits at h
    dsimp only at h
    cases hl : alookup a (absI u) with
    | some b =>
      rw [hl] at h
      dsimp only at h
      by_cases hb : b ≠ decide (u > 0)
      · rw [if_pos hb] at h
        simp only [Prod.mk.injEq] at h
        exact absurd h.2.2 Bool.false_ne_true
      · rw [if_neg hb] at h
        rcases ih _ _ _ _ h with ⟨v, hv, hnone, hsome⟩
        exact ⟨v, List.mem_cons_of_mem _ hv, hnone, hsome⟩
    | none =>
      rw [hl] at h
      dsimp only at h
      cases hs : simplifyUnit u cls with
      | none =>
        rw [hs] at h
        simp only [Prod.mk.injEq] at h
        exact absurd h.2.2 Bool.false_ne_true
      | some cls₁ =>
        rw [hs] at h
        refine ⟨absI u, by simp, hl, decide (u > 0), ?_⟩
        exact processUnits_ale _ _ _ _ _ _ _ h (absI u) _ (alookup_aset_self a _ _)

theorem units_vars (cls : List Clause) (u : Int)
    (hu : u ∈ (cls.filter (fun cl => cl.length = 1)).map (fun cl => cl.headD 0)) :
    absI u ∈ varsOf cls := by
  rcases List.mem_map.mp hu with ⟨cl, hcl, hhead⟩
  rcases List.mem_filter.mp hcl with ⟨hmem, hlen⟩
  rcases List.length_eq_one.mp (of_decide_eq_true hlen) with ⟨x, hx⟩
  subst hx
  have hux : x = u := hhead
  subst hux
  exact mem_varsOf_of_mem (List.mem_singleton.mpr rfl) hmem

theorem unitPropagate_ale :
    ∀ (fuel : Nat) (cls : List Clause) (a : Assign)
      (o : Option (List Clause)) (a' : Assign),
      unitPropagate fuel cls a = some (o, a') → ALe a a' := by
  intro fuel
  induction fuel with
  | zero => intro cls a o a' h; cases h
  | succ fuel ih =>
    intro cls a o a' h
    unfold unitPropagate at h
    dsimp only at h
    split at h
    · cases h
      exact ale_refl a
    · split at h
      · rename_i heq
        cases h
        exact processUnits_ale _ _ _ _ _ _ _ heq
      · rename_i cls₂ a₂ changed heq
        split at h
        · exact ale_trans (processUnits_ale _ _ _ _ _ _ _ heq) (ih _ _ _ _ h)
        · cases h
          exact processUnits_ale _ _ _ _ _ _ _ heq

theorem unitPropagate_ref :
    ∀ (fuel : Nat) (cls : List Clause) (a : Assign)
      (cls' : List Clause) (a' : Assign),
      unitPropagate fuel cls a = some (some cls', a') → Ref cls cls' := by
  intro fuel
  induction fuel with
  | zero => intro cls a cls' a' h; cases h
  | succ fuel ih =>
    intro cls a cls' a' h
    unfold unitPropagate at h
    dsimp only at h
    split at h
    · cases h
      exact ref_refl cls
    · split at h
      · cases h
      · rename_i cls₂ a₂ changed heq
        split at h
        · exact ref_trans (processUnits_ref _ _ _ _ _ _ _ heq) (ih _ _ _ _ h)
        · cases h
          exact processUnits_ref _ _ _ _ _ _ _ heq

theorem unitPropagate_isSome :
    ∀ (fuel : Nat) (cls : List Clause) (a : Assign), mu cls a < fuel →
      (unitPropagate fuel cls a).isSome = true := by
  intro fuel
  induction fuel with
  | zero => intro cls a h; omega
  | succ fuel ih =>
    intro cls a hmu
    unfold unitPropagate
    dsimp only
    split
    · rfl
    · split
      · rfl
      · rename_i cls₂ a₂ changed heq
        split
        · rename_i hch
          subst hch
          rcases processUnits_new _ _ _ _ _ heq with ⟨v, hv, hnone, b, hsome⟩
          rcases List.mem_map.mp hv with ⟨u, hu, huv⟩
          have hvvars : v ∈ varsOf cls := huv ▸ units_vars cls u hu
          have hlt : mu cls₂ a₂ < mu cls a :=
            mu_lt (processUnits_ref _ _ _ _ _ _ _ heq)
              (processUnits_ale _ _ _ _ _ _ _ heq) hvvars hnone hsome
          exact ih cls₂ a₂ (by omega)
        · rfl

theorem mem_updatePolarity :
    ∀ (pol : List (Int × Int)) (v q : Int) (p : Int × Int),
      p ∈ updatePolarity pol v q → p.1 = v ∨ p ∈ pol := by
  intro pol
  induction pol with
  | nil =>
    intro v q p hp
    unfold updatePolarity at hp
    rw [List.mem_singleton] at hp
    subst hp
    exact Or.inl rfl
  | cons w rest ih =>
    intro v q p hp
    obtain ⟨x, c⟩ := w
    unfold updatePolarity at hp
    by_cases hx : x = v
    · rw [if_pos hx] at hp
      by_cases hc : c ≠ q
      · rw [if_pos hc] at hp
        rcases List.mem_cons.mp hp with h | h
        · subst h
          exact Or.inl hx
        · exact Or.inr (List.mem_cons_of_mem _ h)
      · rw [if_neg hc] at hp
        exact Or.inr hp
    · rw [if_neg hx] at hp
      rcases List.mem_cons.mp hp with h | h
      · subst h
        exact Or.inr (List.mem_cons_self _ _)
      · rcases ih v q p h with h' | h'
        · exact Or.inl h'
        · exact Or.inr (List.mem_cons_of_mem _ h')

theorem updatePolarity_keys :
    ∀ (pol : List (Int × Int)) (v q : Int),
      (updatePolarity pol v q).map Prod.fst =
        if v ∈ pol.map Prod.fst then pol.map Prod.fst
        else pol.map Prod.fst ++ [v] := by
  intro pol
  induction pol with
  | nil => intro v q; simp [updatePolarity]
  | cons w rest ih =>
    intro v q
    obtain ⟨x, c⟩ := w
    unfold updatePolarity
    by_cases hx : x = v
    · rw [if_pos hx]
      have hmem : v ∈ ((x, c) :: rest).map Prod.fst := by
        rw [List.map_cons]
        exact List.mem_cons.mpr (Or.inl hx.symm)
      rw [if_pos hmem]
      by_cases hc : c ≠ q
      · rw [if_pos hc]
        simp
      · rw [if_neg hc]
    · rw [if_neg hx, List.map_cons, List.map_cons, ih v q]
      by_cases hv : v ∈ rest.map Prod.fst
      · rw [if_pos hv, if_pos (List.mem_cons.mpr (Or.inr hv))]
      · rw [if_neg hv,
          if_neg (by
            rw [List.mem_cons]
            rintro (h | h)
            · exact hx h.symm
            · exact hv h)]
        simp

theorem computePolarity_nodup_aux :
    ∀ (xs : List Int) (acc : List (Int × Int)), (acc.map Prod.fst).Nodup →
      ((xs.foldl (fun pol l =>
        updatePolarity pol (absI l) (if l > 0 then 1 else -1)) acc).map Prod.fst).Nodup := by
  intro xs
  induction xs with
  | nil => intro acc h; exact h
  | cons l xs' ih =>
    intro acc h
    rw [List.foldl_cons]
    apply ih
    rw [updatePolarity_keys]
    split
    · exact h
    · rename_i hnm
      rw [List.nodup_append]
      exact ⟨h, List.nodup_singleton _, by
        intro k hk hks
        rw [List.mem_singleton] at hks
        subst hks
        exact hnm hk⟩

theorem computePolarity_nodup (cls : List Clause) :
    ((computePolarity cls).map Prod.fst).Nodup :=
  computePolarity_nodup_aux cls.flatten [] List.nodup_nil

theorem computePolarity_sub_aux :
    ∀ (xs : List Int) (acc : List (Int × Int)) (S : Finset Int),
      (∀ p ∈ acc, p.1 ∈ S) → (∀ l ∈ xs, absI l ∈ S) →
      ∀ p ∈ xs.foldl (fun pol l =>
        updatePolarity pol (absI l) (if l > 0 then 1 else -1)) acc, p.1 ∈ S := by
  intro xs
  induction xs with
  | nil => intro acc S hacc _ p hp; exact hacc p hp
  | cons l xs' ih =>
    intro acc S hacc hxs p hp
    rw [List.foldl_cons] at hp
    refine ih _ S ?_ (fun l' hl' => hxs l' (List.mem_cons_of_mem _ hl')) p hp
    intro q hq
    rcases mem_updatePolarity _ _ _ q hq with h | h
    · rw [h]
      exact hxs l (List.mem_cons_self _ _)
    · exact hacc q h

theorem computePolarity_sub (cls : List Clause) :
    ∀ p ∈ computePolarity cls, p.1 ∈ varsOf cls := by
  apply computePolarity_sub_aux cls.flatten [] (varsOf cls)
  · intro p hp; cases hp
  · intro l hl
    rcases List.mem_flatten.mp hl with ⟨c, hc, hlc⟩
    exact mem_varsOf_of_mem hlc hc

theorem assignPures :
    ∀ (ps : List (Int × Bool)) (a : Assign),
      (ps.map Prod.fst).Nodup → (∀ p ∈ ps, alookup a p.1 = none) →
      ALe a (ps.foldl (fun acc p => aset acc p.1 p.2) a) ∧
      ∀ p ∈ ps, alookup (ps.foldl (fun acc p => aset acc p.1 p.2) a) p.1 = some p.2 := by
  intro ps
  induction ps with
  | nil =>
    intro a _ _
    exact ⟨ale_refl a, by intro p hp; cases hp⟩
  | cons p0 rest ih =>
    intro a hnd hnone
    rw [List.map_cons, List.nodup_cons] at hnd
    have h0 : alookup a p0.1 = none := hnone p0 (List.mem_cons_self _ _)
    have hrest_none : ∀ p ∈ rest, alookup (aset a p0.1 p0.2) p.1 = none := by
      intro p hp
      have hne : p.1 ≠ p0.1 := by
        intro he
        exact hnd.1 (he ▸ List.mem_map.mpr ⟨p, hp, rfl⟩)
      rw [alookup_aset_ne _ _ _ _ hne]
      exact hnone p (List.mem_cons_of_mem _ hp)
    rcases ih (aset a p0.1 p0.2) hnd.2 hrest_none with ⟨hale, hlook⟩
    rw [List.foldl_cons]
    constructor
    · exact ale_trans (ale_aset a p0.1 p0.2 h0) hale
    · intro p hp
      rcases List.mem_cons.mp hp with h | h
      · subst h
        exact hale p.1 p.2 (alookup_aset_self a p.1 p.2)
      · exact hlook p h

theorem ref_filter (cls : List Clause) (p : Clause → Bool) : Ref cls (cls.filter p) :=
  fun c' hc' => ⟨c', List.mem_of_mem_filter hc', fun _ hl => hl⟩

theorem pures_map_fst (cls : List Clause) (a : Assign) :
    ((((computePolarity cls).filter
        (fun p => (p.2 = 1 || p.2 = -1) && (alookup a p.1).isNone)).map
        (fun p => (p.1, decide (p.2 = 1)))).map Prod.fst) =
      ((computePolarity cls).filter
        (fun p => (p.2 = 1 || p.2 = -1) && (alookup a p.1).isNone)).map Prod.fst := by
  rw [List.map_map]
  rfl

/-- The three facts needed about one pure-literal-elimination step: the
assignment only grows, the clause list is refined, and a step that reports a
change strictly decreases the measure. -/
theorem pureElim_spec :
    ∀ (cls : List Clause) (a : Assign) (cls' : List Clause) (a' : Assign) (ch : Bool),
      pureLiteralElimination cls a = (cls', a', ch) →
      ALe a a' ∧ Ref cls cls' ∧ (ch = true → mu cls' a' < mu cls a) := by
  intro cls a cls' a' ch h
  unfold pureLiteralElimination at h
  dsimp only at h
  split at h
  · cases h
    exact ⟨ale_refl a, ref_refl cls, by intro hc; cases hc⟩
  · split at h
    · cases h
      exact ⟨ale_refl a, ref_refl cls, by intro hc; cases hc⟩
    · rename_i hne
      have hnd : ((((computePolarity cls).filter
          (fun p => (p.2 = 1 || p.2 = -1) && (alookup a p.1).isNone)).map
          (fun p => (p.1, decide (p.2 = 1)))).map Prod.fst).Nodup := by
        rw [pures_map_fst]
        exact List.Nodup.sublist ((List.filter_sublist _).map Prod.fst)
          (computePolarity_nodup cls)
      have hnone : ∀ p ∈ (((computePolarity cls).filter
          (fun p => (p.2 = 1 || p.2 = -1) && (alookup a p.1).isNone)).map
          (fun p => (p.1, decide (p.2 = 1)))), alookup a p.1 = none := by
        intro p hp
        rcases List.mem_map.mp hp with ⟨q, hq, hqp⟩
        rcases List.mem_filter.mp hq with ⟨_, hcond⟩
        rw [Bool.and_eq_true] at hcond
        rw [← hqp]
        exact Option.isNone_iff_eq_none.mp hcond.2
      have hvars : ∀ p ∈ (((computePolarity cls).filter
          (fun p => (p.2 = 1 || p.2 = -1) && (alookup a p.1).isNone)).map
          (fun p => (p.1, decide (p.2 = 1)))), p.1 ∈ varsOf cls := by
        intro p hp
        rcases List.mem_map.mp hp with ⟨q, hq, hqp⟩
        rw [← hqp]
        exact computePolarity_sub cls q (List.mem_of_mem_filter hq)
      rcases assignPures _ a hnd hnone with ⟨hale, hlook⟩
      cases h
      refine ⟨hale, ref_filter _ _, ?_⟩
      intro _
      rcases hps : (((computePolarity cls).filter
          (fun p => (p.2 = 1 || p.2 = -1) && (alookup a p.1).isNone)).map
          (fun p => (p.1, decide (p.2 = 1)))) with _ | ⟨p0, prest⟩
      · rw [hps] at hne
        exact absurd rfl hne
      · have hp0 : p0 ∈ (((computePolarity cls).filter
            (fun p => (p.2 = 1 || p.2 = -1) && (alookup a p.1).isNone)).map
            (fun p => (p.1, decide (p.2 = 1)))) := by
          rw [hps]
          exact List.mem_cons_self _ _
        exact mu_lt (ref_filter _ _) hale (hvars p0 hp0) (hnone p0 hp0)
          (hlook p0 hp0)

theorem simplifyLoop_ale :
    ∀ (fuel : Nat) (cls : List Clause) (a : Assign) (r : LoopRes),
      simplifyLoop fuel cls a = some r → ALe a (resAssign r) := by
  intro fuel
  induction fuel with
  | zero => intro cls a r h; cases h
  | succ fuel ih =>
    intro cls a r h
    unfold simplifyLoop at h
    cases hup : unitPropagate (fuel + 1) cls a with
    | none => rw [hup] at h; cases h
    | some pr =>
      obtain ⟨o, a₁⟩ := pr
      rw [hup] at h
      cases o with
      | none =>
        dsimp only at h
        cases h
        exact unitPropagate_ale _ _ _ _ _ hup
      | some cls₁ =>
        dsimp only at h
        split at h
        · cases h
          exact unitPropagate_ale _ _ _ _ _ hup
        · cases hpe : pureLiteralElimination cls₁ a₁ with
          | mk cls₂ pr₂ =>
            obtain ⟨a₂, changed⟩ := pr₂
            rw [hpe] at h
            dsimp only at h
            rcases pureElim_spec cls₁ a₁ cls₂ a₂ changed hpe with ⟨hale₂, _, _⟩
            have hale₁ : ALe a a₂ :=
              ale_trans (unitPropagate_ale _ _ _ _ _ hup) hale₂
            split at h
            · exact ale_trans hale₁ (ih _ _ _ h)
            · cases h
              exact hale₁

theorem simplifyLoop_proceed_mu :
    ∀ (fuel : Nat) (cls : List Clause) (a : Assign) (cls' : List Clause) (a' : Assign),
      simplifyLoop fuel cls a = some (.proceed cls' a') →
      mu cls' a' ≤ mu cls a := by
  intro fuel
  induction fuel with
  | zero => intro cls a cls' a' h; cases h
  | succ fuel ih =>
    intro cls a cls' a' h
    unfold simplifyLoop at h
    cases hup : unitPropagate (fuel + 1) cls a with
    | none => rw [hup] at h; cases h
    | some pr =>
      obtain ⟨o, a₁⟩ := pr
      rw [hup] at h
      cases o with
      | none => dsimp only at h; cases h
      | some cls₁ =>
        dsimp only at h
        have hmu₁ : mu cls₁ a₁ ≤ mu cls a :=
          mu_le (unitPropagate_ref _ _ _ _ _ hup) (unitPropagate_ale _ _ _ _ _ hup)
        split at h
        · cases h
        · cases hpe : pureLiteralElimination cls₁ a₁ with
          | mk cls₂ pr₂ =>
            obtain ⟨a₂, changed⟩ := pr₂
            rw [hpe] at h
            dsimp only at h
            rcases pureElim_spec cls₁ a₁ cls₂ a₂ changed hpe with ⟨hale₂, href₂, _⟩
            have hmu₂ : mu cls₂ a₂ ≤ mu cls₁ a₁ := mu_le href₂ hale₂
            split at h
            · exact le_trans (le_trans (ih _ _ _ _ h) hmu₂) hmu₁
            · cases h
              exact le_trans hmu₂ hmu₁

theorem simplifyLoop_isSome :
    ∀ (fuel : Nat) (cls : List Clause) (a : Assign), mu cls a < fuel →
      (simplifyLoop fuel cls a).isSome = true := by
  intro fuel
  induction fuel with
  | zero => intro cls a h; omega
  | succ fuel ih =>
    intro cls a hmu
    unfold simplifyLoop
    have hup := unitPropagate_isSome (fuel + 1) cls a hmu
    rcases Option.isSome_iff_exists.mp hup with ⟨pr, hup'⟩
    obtain ⟨o, a₁⟩ := pr
    rw [hup']
    cases o with
    | none => rfl
    | some cls₁ =>
      dsimp only
      split
      · rfl
      · cases hpe : pureLiteralElimination cls₁ a₁ with
        | mk cls₂ pr₂ =>
          obtain ⟨a₂, changed⟩ := pr₂
          dsimp only
          rcases pureElim_spec cls₁ a₁ cls₂ a₂ changed hpe with ⟨_, _, hchange⟩
          split
          · rename_i hch
            subst hch
            have hmu₁ : mu cls₁ a₁ ≤ mu cls a :=
              mu_le (unitPropagate_ref _ _ _ _ _ hup') (unitPropagate_ale _ _ _ _ _ hup')
            have hlt : mu cls₂ a₂ < mu cls₁ a₁ := hchange rfl
            exact ih cls₂ a₂ (by omega)
          · rfl

theorem bumpCount_keys :
    ∀ (m : List (Int × Nat)) (v k : Int),
      k ∈ (bumpCount m v).map Prod.fst → k = v ∨ k ∈ m.map Prod.fst := by
  intro m
  induction m with
  | nil =>
    intro v k hk
    unfold bumpCount at hk
    rw [List.map_singleton, List.mem_singleton] at hk
    exact Or.inl hk
  | cons p rest ih =>
    intro v k hk
    obtain ⟨x, n⟩ := p
    unfold bumpCount at hk
    by_cases hx : x = v
    · rw [if_pos hx] at hk
      rw [List.map_cons] at hk
      rcases List.mem_cons.mp hk with h | h
      · exact Or.inr (by rw [List.map_cons]; exact List.mem_cons.mpr (Or.inl h))
      · exact Or.inr (by rw [List.map_cons]; exact List.mem_cons.mpr (Or.inr h))
    · rw [if_neg hx] at hk
      rw [List.map_cons] at hk
      rcases List.mem_cons.mp hk with h | h
      · exact Or.inr (by rw [List.map_cons]; exact List.mem_cons.mpr (Or.inl h))
      · rcases ih v k h with h' | h'
        · exact Or.inl h'
        · exact Or.inr (by rw [List.map_cons]; exact List.mem_cons.mpr (Or.inr h'))

theorem bumpCounts_keys_aux (a : Assign) (S : Finset Int) :
    ∀ (xs : List Int) (pc nc : List (Int × Nat)),
      (∀ k ∈ pc.map Prod.fst, k ∈ S ∧ alookup a k = none) →
      (∀ k ∈ nc.map Prod.fst, k ∈ S ∧ alookup a k = none) →
      (∀ l ∈ xs, absI l ∈ S) →
      (∀ k ∈ (xs.foldl (fun counts l =>
          let v := absI l
          if (alookup a v).isSome then counts
          else if l > 0 then (bumpCount counts.1 v, counts.2)
          else (counts.1, bumpCount counts.2 v)) (pc, nc)).1.map Prod.fst,
        k ∈ S ∧ alookup a k = none) ∧
      (∀ k ∈ (xs.foldl (fun counts l =>
          let v := absI l
          if (alookup a v).isSome then counts
          else if l > 0 then (bumpCount counts.1 v, counts.2)
          else (counts.1, bumpCount counts.2 v)) (pc, nc)).2.map Prod.fst,
        k ∈ S ∧ alookup a k = none) := by
  intro xs
  induction xs with
  | nil => intro pc nc hpc hnc _; exact ⟨hpc, hnc⟩
  | cons l xs' ih =>
    intro pc nc hpc hnc hxs
    rw [List.foldl_cons]
    dsimp only
    have hxs' : ∀ l' ∈ xs', absI l' ∈ S :=
      fun l' hl' => hxs l' (List.mem_cons_of_mem _ hl')
    by_cases hs : (alookup a (absI l)).isSome = true
    · rw [if_pos hs]
      exact ih pc nc hpc hnc hxs'
    · rw [if_neg hs]
      have hnone : alookup a (absI l) = none := by
        cases hh : alookup a (absI l)
        · rfl
        · rw [hh] at hs; exact absurd rfl hs
      have hnew : ∀ (m : List (Int × Nat)),
          (∀ k ∈ m.map Prod.fst, k ∈ S ∧ alookup a k = none) →
          ∀ k ∈ (bumpCount m (absI l)).map Prod.fst, k ∈ S ∧ alookup a k = none := by
        intro m hm k hk
        rcases bumpCount_keys m (absI l) k hk with h | h
        · subst h
          exact ⟨hxs l (List.mem_cons_self _ _), hnone⟩
        · exact hm k h
      by_cases hl : l > 0
      · rw [if_pos hl]
        exact ih _ nc (hnew pc hpc) hnc hxs'
      · rw [if_neg hl]
        exact ih pc _ hpc (hnew nc hnc) hxs'

/-- A fold whose step either keeps the accumulator or installs the visited key
yields either the initial key or a visited key. -/
theorem foldl_choice_mem (step : (Int × Bool × Int) → Int → (Int × Bool × Int))
    (hstep : ∀ acc v, (step acc v).1 = v ∨ step acc v = acc) (K : List Int) :
    ∀ (ks : List Int) (acc : Int × Bool × Int),
      (acc.1 = 0 ∨ acc.1 ∈ K) → (∀ k ∈ ks, k ∈ K) →
      ((ks.foldl step acc).1 = 0 ∨ (ks.foldl step acc).1 ∈ K) := by
  intro ks
  induction ks with
  | nil => intro acc hacc _; exact hacc
  | cons k ks' ih =>
    intro acc hacc hks
    rw [List.foldl_cons]
    refine ih (step acc k) ?_ (fun k' hk' => hks k' (List.mem_cons_of_mem _ hk'))
    rcases hstep acc k with h | h
    · exact Or.inr (by rw [h]; exact hks k (List.mem_cons_self _ _))
    · rw [h]
      exact hacc

theorem dlis_spec (cls : List Clause) (a : Assign) (dv : Int) (dpol : Bool)
    (h : dlisLiteChoice cls a = (dv, dpol)) (hne : dv ≠ 0) :
    dv ∈ varsOf cls ∧ alookup a dv = none := by
  unfold dlisLiteChoice at h
  cases hbc : bumpCounts cls a with
  | mk pc nc =>
    rw [hbc] at h
    dsimp only at h
    split at h
    · injection h with h1 _
      exact absurd h1.symm hne
    · -- keys invariant from bumpCounts
      have hkeys : (∀ k ∈ pc.map Prod.fst, k ∈ varsOf cls ∧ alookup a k = none) ∧
          (∀ k ∈ nc.map Prod.fst, k ∈ varsOf cls ∧ alookup a k = none) := by
        have := bumpCounts_keys_aux a (varsOf cls) cls.flatten [] []
          (by intro k hk; cases hk) (by intro k hk; cases hk)
          (by
            intro l hl
            rcases List.mem_flatten.mp hl with ⟨c, hc, hlc⟩
            exact mem_varsOf_of_mem hlc hc)
        have hbc' : cls.flatten.foldl (fun counts l =>
            let v := absI l
            if (alookup a v).isSome then counts
            else if l > 0 then (bumpCount counts.1 v, counts.2)
            else (counts.1, bumpCount counts.2 v)) ([], []) = (pc, nc) := by
          rw [← hbc]
          rfl
        rw [hbc'] at this
        exact this
      have hstep : ∀ (acc : Int × Bool × Int) (v : Int),
          ((fun best v =>
            let pcnt : Int := (getCount pc v : Nat)
            let ncnt : Int := (getCount nc v : Nat)
            if pcnt ≥ ncnt ∧ pcnt > best.2.2 then (v, true, pcnt)
            else if ncnt > best.2.2 then (v, false, ncnt)
            else best) acc v).1 = v ∨
          ((fun best v =>
            let pcnt : Int := (getCount pc v : Nat)
            let ncnt : Int := (getCount nc v : Nat)
            if pcnt ≥ ncnt ∧ pcnt > best.2.2 then (v, true, pcnt)
            else if ncnt > best.2.2 then (v, false, ncnt)
            else best) acc v) = acc := by
        intro acc v
        dsimp only
        split_ifs
        · exact Or.inl rfl
        · exact Or.inl rfl
        · exact Or.inr rfl
      have hfold := foldl_choice_mem _ hstep
        (pc.map Prod.fst ++ (nc.map Prod.fst).filter
          (fun v => v ∉ pc.map Prod.fst))
        (pc.map Prod.fst ++ (nc.map Prod.fst).filter
          (fun v => v ∉ pc.map Prod.fst))
        ((0 : Int), true, (-1 : Int)) (Or.inl rfl) (fun k hk => hk)
      injection h with h1 _
      rw [h1] at hfold
      rcases hfold with h' | h'
      · exact absurd h' hne
      · rcases List.mem_append.mp h' with hk | hk
        · exact hkeys.1 dv hk
        · exact hkeys.2 dv (List.mem_of_mem_filter hk)

theorem chooseUnassigned_spec (cls : List Clause) (a : Assign) (uh : Bool)
    (v : Int) (pol : Bool) (heq : chooseUnassigned cls a uh = (v, pol)) (hv : v ≠ 0) :
    v ∈ varsOf cls ∧ alookup a v = none := by
  unfold chooseUnassigned at heq
  dsimp only at heq
  have hfall : ∀ (w : Int) (q : Bool),
      (match cls.flatten.find? (fun l => (alookup a (absI l)).isNone) with
       | some l => (absI l, true)
       | none => ((0 : Int), true)) = (w, q) → w ≠ 0 →
      w ∈ varsOf cls ∧ alookup a w = none := by
    intro w q hw hwne
    cases hf : cls.flatten.find? (fun l => (alookup a (absI l)).isNone) with
    | none =>
      rw [hf] at hw
      injection hw with h1 _
      exact absurd h1.symm hwne
    | some l =>
      rw [hf] at hw
      injection hw with h1 _
      subst h1
      constructor
      · rcases List.mem_flatten.mp (List.mem_of_find?_eq_some hf) with ⟨c, hc, hl⟩
        exact mem_varsOf_of_mem hl hc
      · have hp : (alookup a (absI l)).isNone = true :=
          @List.find?_some Int (fun l => (alookup a (absI l)).isNone) l cls.flatten hf
        exact Option.isNone_iff_eq_none.mp hp
  split at heq
  · -- heuristic enabled
    cases hd : dlisLiteChoice cls a with
    | mk dv dpol =>
      rw [hd] at heq
      dsimp only at heq
      split at heq
      · rename_i hdv
        injection heq with h1 h2
        rw [← h1] at hv ⊢
        exact dlis_spec cls a dv dpol hd hv
      · exact hfall v pol heq hv
  · exact hfall v pol heq hv

/-- Everything assigned on entry to `_dpll_rec` is still assigned, with the
same value, when it returns: the only deletions are of the activation's own
decision variables, which were unassigned on entry. -/
theorem dpllRec_ale (uh : Bool) :
    ∀ (fuel : Nat) (cls : List Clause) (a : Assign) (s : Bool) (m aA : Assign),
      dpllRec uh fuel cls a = some (s, m, aA) → ALe a aA := by
  intro fuel
  induction fuel with
  | zero => intro cls a s m aA h; cases h
  | succ fuel ih =>
    intro cls a s m aA h
    unfold dpllRec at h
    cases hsl : simplifyLoop (fuel + 1) cls a with
    | none => rw [hsl] at h; cases h
    | some r =>
      rw [hsl] at h
      cases r with
      | conflictR a₀ =>
        dsimp only at h
        cases h
        exact simplifyLoop_ale _ _ _ _ hsl
      | satR a₀ =>
        dsimp only at h
        cases h
        exact simplifyLoop_ale _ _ _ _ hsl
      | proceed cls₀ a₀ =>
        dsimp only at h
        have hale₀ : ALe a a₀ := simplifyLoop_ale _ _ _ _ hsl
        cases hch : chooseUnassigned cls₀ a₀ uh with
        | mk v pol =>
          rw [hch] at h
          dsimp only at h
          by_cases hv : v = 0
          · rw [if_pos hv] at h
            cases h
            exact hale₀
          · rw [if_neg hv] at h
            have hv0 : alookup a₀ v = none :=
              (chooseUnassigned_spec cls₀ a₀ uh v pol hch hv).2
            have hva : alookup a v = none := by
              cases hh : alookup a v with
              | none => rfl
              | some b =>
                have := hale₀ v b hh
                rw [hv0] at this
                cases this
            have hale1 : ALe a (aset a₀ v pol) :=
              ale_trans hale₀ (ale_aset _ _ _ hv0)
            -- the continuation after a failed first branch, for any assignment
            -- state aA1 that extends a
            have hsecond : ∀ (aA1 : Assign), ALe a aA1 →
                ∀ (h2 : (match (match simplifyUnit (if !pol then v else -v) cls₀ with
                    | none => some (false, ([] : Assign), aset (adel aA1 v) v (!pol))
                    | some newCls =>
                      dpllRec uh fuel newCls (aset (adel aA1 v) v (!pol))) with
                  | none => none
                  | some (true, m, aA') => some (true, m, aA')
                  | some (false, _, aA') => some (false, [], adel aA' v)) =
                    some (s, m, aA)), ALe a aA := by
              intro aA1 hA1 h2
              have hale2 : ALe a (aset (adel aA1 v) v (!pol)) := by
                intro w b hw
                have hwv : w ≠ v := fun he => by rw [he, hva] at hw; cases hw
                rw [alookup_aset_ne _ _ _ _ hwv, alookup_adel_ne _ _ _ hwv]
                exact hA1 w b hw
              cases hs2 : simplifyUnit (if !pol then v else -v) cls₀ with
              | none =>
                rw [hs2] at h2
                dsimp only at h2
                cases h2
                intro w b hw
                have hwv : w ≠ v := fun he => by rw [he, hva] at hw; cases hw
                rw [alookup_adel_ne _ _ _ hwv]
                exact hale2 w b hw
              | some newCls2 =>
                rw [hs2] at h2
                dsimp only at h2
                cases hr2 : dpllRec uh fuel newCls2 (aset (adel aA1 v) v (!pol)) with
                | none => rw [hr2] at h2; cases h2
                | some t2 =>
                  obtain ⟨s2, m2, aA2⟩ := t2
                  rw [hr2] at h2
                  have hA2 : ALe a aA2 := ale_trans hale2 (ih _ _ _ _ _ hr2)
                  cases s2 with
                  | true =>
                    dsimp only at h2
                    cases h2
                    exact hA2
                  | false =>
                    dsimp only at h2
                    cases h2
                    intro w b hw
                    have hwv : w ≠ v := fun he => by rw [he, hva] at hw; cases hw
                    rw [alookup_adel_ne _ _ _ hwv]
                    exact hA2 w b hw
            cases hs1 : simplifyUnit (if pol then v else -v) cls₀ with
            | none =>
              rw [hs1] at h
              dsimp only at h
              exact hsecond (aset a₀ v pol) hale1 h
            | some newCls =>
              rw [hs1] at h
              dsimp only at h
              cases hr1 : dpllRec uh fuel newCls (aset a₀ v pol) with
              | none => rw [hr1] at h; cases h
              | some t1 =>
                obtain ⟨s1, m1, aA1⟩ := t1
                rw [hr1] at h
                have hA1 : ALe a aA1 := ale_trans hale1 (ih _ _ _ _ _ hr1)
                cases s1 with
                | true =>
                  dsimp only at h
                  cases h
                  exact hA1
                | false =>
                  dsimp only at h
                  exact hsecond aA1 hA1 h

/-- The fuel `dpll` supplies to `_dpll_rec` always suffices: with more fuel
than unassigned clause variables, the search returns a result. -/
theorem dpllRec_isSome (uh : Bool) :
    ∀ (fuel : Nat) (cls : List Clause) (a : Assign), mu cls a < fuel →
      (dpllRec uh fuel cls a).isSome = true := by
  intro fuel
  induction fuel with
  | zero => intro cls a h; omega
  | succ fuel ih =>
    intro cls a hmu
    unfold dpllRec
    have hsl := simplifyLoop_isSome (fuel + 1) cls a hmu
    rcases Option.isSome_iff_exists.mp hsl with ⟨r, hsl'⟩
    rw [hsl']
    cases r with
    | conflictR a₀ => rfl
    | satR a₀ => rfl
    | proceed cls₀ a₀ =>
      dsimp only
      cases hch : chooseUnassigned cls₀ a₀ uh with
      | mk v pol =>
        dsimp only
        by_cases hv : v = 0
        · rw [if_pos hv]
          rfl
        · rw [if_neg hv]
          have hmu₀ : mu cls₀ a₀ ≤ mu cls a := simplifyLoop_proceed_mu _ _ _ _ _ hsl'
          rcases chooseUnassigned_spec cls₀ a₀ uh v pol hch hv with ⟨hvvars, hv0⟩
          have hmu_pos : 0 < mu cls₀ a₀ :=
            Finset.card_pos.mpr ⟨v, Finset.mem_filter.mpr ⟨hvvars, hv0⟩⟩
          -- the continuation after a failed first branch
          have hsecond : ∀ (aA1 : Assign), ALe a₀ aA1 →
              (match (match simplifyUnit (if !pol then v else -v) cls₀ with
                  | none => some (false, ([] : Assign), aset (adel aA1 v) v (!pol))
                  | some newCls =>
                    dpllRec uh fuel newCls (aset (adel aA1 v) v (!pol))) with
                | none => none
                | some (true, m, aA') => some (true, m, aA')
                | some (false, _, aA') =>
                    some (false, ([] : Assign), adel aA' v)).isSome = true := by
            intro aA1 hA1
            have hale2 : ALe a₀ (aset (adel aA1 v) v (!pol)) := by
              intro w b hw
              have hwv : w ≠ v := fun he => by rw [he, hv0] at hw; cases hw
              rw [alookup_aset_ne _ _ _ _ hwv, alookup_adel_ne _ _ _ hwv]
              exact hA1 w b hw
            cases hs2 : simplifyUnit (if !pol then v else -v) cls₀ with
            | none => rfl
            | some newCls2 =>
              dsimp only
              have hlt2 : mu newCls2 (aset (adel aA1 v) v (!pol)) < mu cls₀ a₀ :=
                mu_lt (simplifyUnit_ref _ _ _ hs2) hale2 hvvars hv0
                  (alookup_aset_self _ _ _)
              have := ih newCls2 (aset (adel aA1 v) v (!pol)) (by omega)
              rcases Option.isSome_iff_exists.mp this with ⟨⟨s2, m2, aA2⟩, hr2⟩
              rw [hr2]
              cases s2 with
              | true => rfl
              | false => rfl
          cases hs1 : simplifyUnit (if pol then v else -v) cls₀ with
          | none =>
            dsimp only
            exact hsecond (aset a₀ v pol) (ale_aset _ _ _ hv0)
          | some newCls =>
            dsimp only
            have hlt1 : mu newCls (aset a₀ v pol) < mu cls₀ a₀ :=
              mu_lt (simplifyUnit_ref _ _ _ hs1) (ale_aset _ _ _ hv0) hvvars hv0
                (alookup_aset_self _ _ _)
            have := ih newCls (aset a₀ v pol) (by omega)
            rcases Option.isSome_iff_exists.mp this with ⟨⟨s1, m1, aA1⟩, hr1⟩
            rw [hr1]
            cases s1 with
            | true => rfl
            | false =>
              dsimp only
              exact hsecond aA1 (ale_trans (ale_aset _ _ _ hv0) (dpllRec_ale uh _ _ _ _ _ _ hr1))

/-- C6: for every CNF formula and either heuristic setting, the solver
terminates with a definite boolean verdict and an assignment.  In this
embedding the unbounded Python loops carry fuel, and this theorem shows the
fuel `dpll` supplies (one more than the number of distinct clause variables)
always suffices, which is exactly the termination argument for the Python
recursion and its `while` loops. -/
theorem dpll_terminates (cnf : CNF) (use_heuristic : Bool) :
    ∃ (sat : Bool) (model : Assign), dpll cnf use_heuristic = some (sat, model) := by
  have hmu : mu cnf.clauses [] < fuelFor cnf.clauses := by
    unfold fuelFor
    have h1 : unassigned cnf.clauses [] ⊆ varsOf cnf.clauses := Finset.filter_subset _ _
    have h2 : mu cnf.clauses [] ≤ (varsOf cnf.clauses).card := Finset.card_le_card h1
    have h3 : (varsOf cnf.clauses).card = (cnf.clauses.flatten.map absI).dedup.length :=
      List.card_toFinset _
    omega
  have hsome := dpllRec_isSome use_heuristic (fuelFor cnf.clauses) cnf.clauses [] hmu
  rcases Option.isSome_iff_exists.mp hsome with ⟨⟨s, m, aA⟩, h⟩
  refine ⟨s, m, ?_⟩
  unfold dpll
  rw [h]
  rfl

/-- C9 witness: the theorem applied at a concrete clause, model and formula. -/
theorem clause_satisfied_spec_witness :
    clause_satisfied [3, -2] [(2, false), (3, false)] = true ∧
    clause_satisfied [1, 2] [(3, true)] = false ∧
    formula_satisfied ⟨2, [[1], [1, -2]]⟩ [(1, true)] = true := by
  refine ⟨?_, ?_, ?_⟩
  · exact (clause_satisfied_spec [3, -2] [(2, false), (3, false)] ⟨0, []⟩ []).1.mpr
      ⟨-2, by decide, Or.inr ⟨by decide, by decide⟩⟩
  · exact (clause_satisfied_spec [1, 2] [(3, true)] ⟨0, []⟩ []).2.1 (by decide)
  · exact (clause_satisfied_spec [] [] ⟨2, [[1], [1, -2]]⟩ [(1, true)]).2.2.mpr (by decide)

end TimetablingSat
